import Mathlib

/-!
Verification development for the StaffAlloc staffing/resource-allocation
backend.  The definitions below are shallow embeddings of the Python source
(`app/utils/reporting.py`, `app/api/allocations.py`, `app/api/reports.py`,
`app/crud.py`): numeric code over Python ints/floats is embedded over `ℤ`/`ℚ`,
Python's `round(x, 2)` (round-half-to-even at two decimals) is embedded as
`round2` over `ℚ`, dictionaries become association lists, and the SQL
aggregation queries become list filters/sums over an explicit database record.
-/

namespace StaffAlloc

/-- Floor of a rational, written explicitly over `num`/`den` so that concrete
instances evaluate; agrees with `Int.floor` (see `qfloor_eq`). -/
def qfloor (q : ℚ) : ℤ := q.num / (q.den : ℤ)

/-- Round a rational to the nearest integer, ties to even — the rounding mode
Python's builtin `round` uses. -/
def roundHalfEven (x : ℚ) : ℤ :=
  let n : ℤ := qfloor x
  let f : ℚ := x - n
  if f < 1/2 then n
  else if 1/2 < f then n + 1
  else if n % 2 = 0 then n else n + 1

/-- Embedding of Python's `round(x, 2)`: round to two decimal places,
ties to even. -/
def round2 (x : ℚ) : ℚ := (roundHalfEven (100 * x) : ℚ) / 100

/-- `x` is an exact two-decimal quantity (an integer number of hundredths). -/
def IsCent (x : ℚ) : Prop := ∃ k : ℤ, x = (k : ℚ) / 100

/-! ## Calendar / hours utility (`app/utils/reporting.py`)

Python's `calendar` module works in the proleptic Gregorian calendar with
`Monday = 0`.  `daysFromCivil` is the standard days-from-civil-date algorithm
(day count relative to 1970-01-01, which was a Thursday, weekday code 3). -/

def isLeapYear (y : ℤ) : Bool := (y % 4 == 0 && y % 100 != 0) || y % 400 == 0

def daysInMonth (y m : ℤ) : ℤ :=
  if m = 2 then (if isLeapYear y then 29 else 28)
  else if m = 4 ∨ m = 6 ∨ m = 9 ∨ m = 11 then 30
  else 31

def daysFromCivil (y m d : ℤ) : ℤ :=
  let yAdj : ℤ := if m ≤ 2 then y - 1 else y
  let era : ℤ := (if 0 ≤ yAdj then yAdj else yAdj - 399) / 400
  let yoe : ℤ := yAdj - era * 400
  let mp : ℤ := (m + 9) % 12
  let doy : ℤ := (153 * mp + 2) / 5 + d - 1
  let doe : ℤ := yoe * 365 + yoe / 4 - yoe / 100 + doy
  era * 146097 + doe - 719468

/-- Weekday with `Monday = 0`, ..., `Sunday = 6` (Python `date.weekday`). -/
def weekday (y m d : ℤ) : ℤ := (daysFromCivil y m d + 3) % 7

/-- `standard_month_hours(year, month)`: number of weekdays (Mon-Fri) in the
month, times 8. -/
def standard_month_hours (y m : ℤ) : ℤ :=
  let business_days : ℤ :=
    (((List.range (daysInMonth y m).toNat).filter
      (fun (i : ℕ) => decide (weekday y m ((i : ℤ) + 1) < 5))).length : ℤ)
  business_days * 8

def month_abbr (m : ℤ) : String :=
  if m = 1 then "Jan" else if m = 2 then "Feb" else if m = 3 then "Mar"
  else if m = 4 then "Apr" else if m = 5 then "May" else if m = 6 then "Jun"
  else if m = 7 then "Jul" else if m = 8 then "Aug" else if m = 9 then "Sep"
  else if m = 10 then "Oct" else if m = 11 then "Nov" else if m = 12 then "Dec"
  else ""

/-- `month_label(year, month)`, e.g. `"Jan 2025"`. -/
def month_label (y m : ℤ) : String := month_abbr m ++ " " ++ toString y

/-- `date(year, month, 1).isoformat()` for the four-digit years the app
accepts (2020-2050). -/
def iso_first_of_month (y m : ℤ) : String :=
  toString y ++ "-" ++ (if m < 10 then "0" ++ toString m else toString m) ++ "-01"

/-- A `(year, month)` key. -/
abbrev MonthKey : Type := ℤ × ℤ

/-- The optional `overrides` mapping `(year, month) ↦ overridden hours`;
`none` embeds Python `None`, the association list embeds a dict (keys are
unique in a dict, so `List.lookup` is its `get`). -/
abbrev Overrides : Type := Option (List (MonthKey × ℤ))

/-- `month_capacity_hours(year, month, overrides)`: the override's hours if one
exists and is positive (Python's `if overrides:` is false for both `None` and
an empty dict), otherwise `max(standard_month_hours(year, month), 1)`. -/
def month_capacity_hours (y m : ℤ) (ov : Overrides) : ℤ :=
  let fallback := max (standard_month_hours y m) 1
  match ov with
  | none => fallback
  | some l =>
    if l.isEmpty then fallback
    else
      match l.lookup (y, m) with
      | some v => if 0 < v then v else fallback
      | none => fallback

/-- A Python `datetime.date` value (validity of the fields is not encoded;
the embedded code only constructs first-of-month dates with month 1-12). -/
structure PyDate where
  year : ℤ
  month : ℤ
  day : ℤ
  deriving DecidableEq

/-- Python's `<` on dates: lexicographic on (year, month, day). -/
def dateLtB (a b : PyDate) : Bool :=
  a.year < b.year ||
    (a.year == b.year &&
      (a.month < b.month || (a.month == b.month && a.day < b.day)))

/-- `k` successive `(year, month)` pairs starting at `(y, m)` — the body of
`iter_months`' while-loop, which steps December into January. -/
def monthsFrom (y m : ℤ) : ℕ → List MonthKey
  | 0 => []
  | Nat.succ k =>
    (y, m) :: (if m = 12 then monthsFrom (y + 1) 1 k else monthsFrom y (m + 1) k)

/-- Number of first-of-month steps from `(sy, sm)` through `(ly, lm)`
inclusive (only meaningful when the start does not exceed the end). -/
def monthSpan (sy sm ly lm : ℤ) : ℕ := ((ly - sy) * 12 + (lm - sm)).toNat + 1

/-- `iter_months(start, end)`: every `(year, month)` from start through end
inclusive; empty when `end < start` (full date comparison, as in the source). -/
def iter_months (start last : PyDate) : List MonthKey :=
  if dateLtB last start then []
  else monthsFrom start.year start.month
    (monthSpan start.year start.month last.year last.month)

/-! ## Planned-hours distribution and burn-down series -/

def capacities (w : List MonthKey) (ov : Overrides) : List ℤ :=
  w.map (fun p => month_capacity_hours p.1 p.2 ov)

/-- `rounded[-1] = round(rounded[-1] + difference, 2)`: rewrite the last
element of the list, absorbing the drift `d`. -/
def adjustLast (d : ℚ) : List ℚ → List ℚ
  | [] => []
  | [x] => [round2 (x + d)]
  | x :: y :: t => x :: adjustLast d (y :: t)

/-- The capacity list actually used: the source replaces it by all-ones when
the summed capacity is ≤ 0 (a branch `capacities_positive_total` shows is
unreachable, embedded here nonetheless). -/
def distribution_caps (w : List MonthKey) (ov : Overrides) : List ℤ :=
  if (capacities w ov).sum ≤ 0 then List.replicate w.length 1 else capacities w ov

/-- `total_capacity` after the zero-capacity fallback. -/
def distribution_total_capacity (w : List MonthKey) (ov : Overrides) : ℤ :=
  if (capacities w ov).sum ≤ 0 then (w.length : ℤ) else (capacities w ov).sum

/-- `scale = total_hours / total_capacity if total_capacity else 0.0`. -/
def distribution_scale (total_hours : ℚ) (w : List MonthKey) (ov : Overrides) : ℚ :=
  if distribution_total_capacity w ov ≠ 0 then
    total_hours / (distribution_total_capacity w ov : ℚ)
  else 0

/-- `rounded = [round(capacity * scale, 2) for capacity in capacities]`. -/
def distribution_rounded (total_hours : ℚ) (w : List MonthKey) (ov : Overrides) :
    List ℚ :=
  ((distribution_caps w ov).map
    (fun (c : ℤ) => (c : ℚ) * distribution_scale total_hours w ov)).map round2

/-- `planned_hours_distribution(total_hours, month_windows, overrides)`:
proportional distribution of the budget over the windows' capacities, rounded
to two decimals, the last element absorbing the rounding drift. -/
def planned_hours_distribution (total_hours : ℚ) (month_windows : List MonthKey)
    (ov : Overrides) : List ℚ :=
  if month_windows = [] then []
  else
    adjustLast
      (round2 (total_hours - (distribution_rounded total_hours month_windows ov).sum))
      (distribution_rounded total_hours month_windows ov)

/-- The `actual_allocations` mapping `(year, month) ↦ hours`. -/
abbrev ActualMap : Type := List (MonthKey × ℚ)

/-- `actual_allocations.get(month, 0.0)`. -/
def lookupQ (m : ActualMap) (k : MonthKey) : ℚ := (m.lookup k).getD 0

/-- One record of the burn-down series. -/
structure BurnPoint where
  label : String
  planned_hours : ℚ
  actual_hours : ℚ
  planned_burn_hours : ℚ
  actual_burn_hours : ℚ
  capacity_hours : ℤ
  sprint_index : ℕ
  date : String
  deriving DecidableEq

/-- The loop of `build_burn_down_series`: walk the zipped
`(month, planned_burn)` list carrying the two running remainders. -/
def burn_down_aux (actual : ActualMap) (ov : Overrides) :
    ℚ → ℚ → ℕ → List (MonthKey × ℚ) → List BurnPoint
  | _, _, _, [] => []
  | planned_remaining, actual_remaining, index, (ym, planned_burn) :: rest =>
    let actual_burn := lookupQ actual ym
    let pr := max (planned_remaining - planned_burn) 0
    let ar := max (actual_remaining - actual_burn) 0
    { label := month_label ym.1 ym.2
      planned_hours := round2 pr
      actual_hours := round2 ar
      planned_burn_hours := round2 planned_burn
      actual_burn_hours := round2 actual_burn
      capacity_hours := month_capacity_hours ym.1 ym.2 ov
      sprint_index := index
      date := iso_first_of_month ym.1 ym.2 } :: burn_down_aux actual ov pr ar (index + 1) rest

/-- `build_burn_down_series(total_hours, month_windows, actual_allocations,
overrides)`. -/
def build_burn_down_series (total_hours : ℚ) (month_windows : List MonthKey)
    (actual : ActualMap) (ov : Overrides) : List BurnPoint :=
  let pd := planned_hours_distribution total_hours month_windows ov
  let pd :=
    if pd.length < month_windows.length then
      pd ++ List.replicate (month_windows.length - pd.length) (0 : ℚ)
    else pd
  burn_down_aux actual ov total_hours total_hours 1 (month_windows.zip pd)

/-- Running planned remainder after consuming a prefix of the zipped list. -/
def plannedAfter (pr : ℚ) (l : List (MonthKey × ℚ)) : ℚ :=
  l.foldl (fun r p => max (r - p.2) 0) pr

/-- Running actual remainder after consuming a prefix of the zipped list. -/
def actualAfter (actual : ActualMap) (ar : ℚ) (l : List (MonthKey × ℚ)) : ℚ :=
  l.foldl (fun r p => max (r - lookupQ actual p.1) 0) ar

/-! ## Even-distribution allocator (`app/api/allocations.py`,
`distribute_assignment_hours`) -/

/-- One row of the `allocations` table.  Fresh rows created by the allocator
carry `id = 0` (the store assigns real ids on commit). -/
structure Allocation where
  id : ℤ
  project_assignment_id : ℤ
  year : ℤ
  month : ℤ
  allocated_hours : ℤ
  deriving DecidableEq

/-- `schemas.AllocationDistributionRequest`. -/
structure AllocationDistributionRequest where
  start_year : ℤ
  start_month : ℤ
  end_year : ℤ
  end_month : ℤ
  total_hours : Option ℤ
  strategy : Option String
  deriving DecidableEq

inductive DistError where
  | unsupported_strategy
  | invalid_month_range
  | negative_total
  | no_months
  deriving DecidableEq

/-- `if distribution.strategy and distribution.strategy.lower() != "even"`
(an empty or absent string is falsy and accepted). -/
def strategyRejected (s : Option String) : Bool :=
  match s with
  | none => false
  | some str => !str.isEmpty && str.toLower != "even"

/-- The per-month hour shares: `base_hours = total // month_count`,
`remainder = total % month_count`, and index `i` gets one extra hour iff
`i < remainder` (Python floor division/modulo match `ℤ`'s `/`/`%` here since
`month_count > 0`). -/
def distribution_hours (total_hours : ℤ) (months : List MonthKey) :
    List (MonthKey × ℤ) :=
  let month_count : ℤ := (months.length : ℤ)
  let base_hours := total_hours / month_count
  let remainder := total_hours % month_count
  months.enum.map
    (fun p => (p.2, base_hours + (if (p.1 : ℤ) < remainder then 1 else 0)))

/-- The endpoint body of `distribute_assignment_hours` after the assignment
lookup: validations, total resolution, and the per-month upsert loop.  The
returned list is the post-state of the `allocations` table (`db` is its
pre-state; the table's unique constraint `uq_assignment_year_month` makes the
key-based row update below coincide with the source's dict of existing rows).
Rejections happen before any write, so an `error` result leaves the table
untouched. -/
def distribute_assignment_hours (assignment_id funded_hours : ℤ)
    (db : List Allocation) (req : AllocationDistributionRequest) :
    Except DistError (List Allocation) :=
  if strategyRejected req.strategy then .error .unsupported_strategy
  else
    let months := iter_months ⟨req.start_year, req.start_month, 1⟩
      ⟨req.end_year, req.end_month, 1⟩
    if months = [] then .error .invalid_month_range
    else
      let assignmentAllocations :=
        db.filter (fun a => a.project_assignment_id == assignment_id)
      let total_hours : ℤ :=
        match req.total_hours with
        | some t => t
        | none =>
          max (funded_hours - (assignmentAllocations.map (·.allocated_hours)).sum) 0
      if total_hours < 0 then .error .negative_total
      else
        if (months.length : ℤ) = 0 then .error .no_months
        else
          let monthHours := distribution_hours total_hours months
          let updated := db.map (fun a =>
            if a.project_assignment_id = assignment_id then
              match monthHours.lookup (a.year, a.month) with
              | some h => { a with allocated_hours := h }
              | none => a
            else a)
          let inserts := monthHours.filterMap (fun p =>
            if assignmentAllocations.any
                (fun a => a.year == p.1.1 && a.month == p.1.2) then none
            else
              some { id := 0, project_assignment_id := assignment_id,
                     year := p.1.1, month := p.1.2, allocated_hours := p.2 })
          .ok (updated ++ inserts)

/-! ## Database read model and aggregation queries (`app/crud.py`,
`app/api/reports.py`) -/

inductive SystemRole where
  | ADMIN
  | PM
  | EMPLOYEE
  deriving DecidableEq

structure User where
  id : ℤ
  full_name : String
  manager_id : Option ℤ
  system_role : SystemRole
  deriving DecidableEq

structure Project where
  id : ℤ
  name : String
  manager_id : Option ℤ
  deriving DecidableEq

structure Role where
  id : ℤ
  name : String
  deriving DecidableEq

structure ProjectAssignment where
  id : ℤ
  project_id : ℤ
  user_id : ℤ
  role_id : ℤ
  funded_hours : ℤ
  deriving DecidableEq

/-- The relational read model the aggregation queries run over. -/
structure DB where
  projects : List Project
  roles : List Role
  users : List User
  assignments : List ProjectAssignment
  allocations : List Allocation
  deriving DecidableEq

/-- The manager-isolation join+filter applied to an assignment:
`JOIN projects ON projects.id = project_id WHERE projects.manager_id = mid`. -/
def keep_assignment (db : DB) (mid : ℤ) (asg : ProjectAssignment) : Bool :=
  db.projects.any (fun p => p.id == asg.project_id && p.manager_id == some mid)

/-- The assignment rows visible under an optional manager scope (the shared
`if manager_id is not None: join ... filter ...` pattern of the crud
aggregation helpers). -/
def scoped_assignments (db : DB) (mid : Option ℤ) : List ProjectAssignment :=
  match mid with
  | none => db.assignments
  | some a => db.assignments.filter (keep_assignment db a)

/-- `SUM(allocated_hours)` grouped by assignment
(the `allocations_sq` subquery of `get_role_capacity_summary`), for one
assignment id. -/
def allocated_hours_for_assignment (db : DB) (aid : ℤ) : ℤ :=
  ((db.allocations.filter (fun al => al.project_assignment_id == aid)).map
    (·.allocated_hours)).sum

/-- `get_role_capacity_summary`: funded-hours aggregate of one role's row. -/
def role_capacity_funded (db : DB) (mid : Option ℤ) (rid : ℤ) : ℤ :=
  (((scoped_assignments db mid).filter (fun asg => asg.role_id == rid)).map
    (·.funded_hours)).sum

/-- `get_role_capacity_summary`: allocated-hours aggregate of one role's row
(coalesced sum over the outer-joined allocation totals). -/
def role_capacity_allocated (db : DB) (mid : Option ℤ) (rid : ℤ) : ℤ :=
  (((scoped_assignments db mid).filter (fun asg => asg.role_id == rid)).map
    (fun asg => allocated_hours_for_assignment db asg.id)).sum

/-- `get_role_capacity_summary`: which roles produce a row (the inner join
keeps a role iff some scoped assignment references it). -/
def role_capacity_role_ids (db : DB) (mid : Option ℤ) : List ℤ :=
  (db.roles.filter (fun r =>
    (scoped_assignments db mid).any (fun asg => asg.role_id == r.id))).map (·.id)

/-- `get_monthly_user_allocation_totals`: the `SUM(allocated_hours)` aggregate
for one `(user, year, month)` group. -/
def monthly_user_allocation_total (db : DB) (mid : Option ℤ) (u y m : ℤ) : ℤ :=
  (((scoped_assignments db mid).filter (fun asg => asg.user_id == u)).map
    (fun asg =>
      ((db.allocations.filter (fun al =>
        al.project_assignment_id == asg.id && al.year == y && al.month == m)).map
        (·.allocated_hours)).sum)).sum

/-- `get_monthly_user_allocation_totals`: whether a `(user, year, month)` group
is present in the grouped result at all. -/
def MonthlyUserTotalHasRow (db : DB) (mid : Option ℤ) (u y m : ℤ) : Prop :=
  ∃ asg ∈ scoped_assignments db mid, asg.user_id = u ∧
    ∃ al ∈ db.allocations,
      al.project_assignment_id = asg.id ∧ al.year = y ∧ al.month = m

/-- `get_monthly_user_project_allocations`: the aggregate for one
`(user, project_id, project_name, year, month)` group.  The query always joins
`projects`; the manager filter is applied on the joined project row. -/
def monthly_user_project_allocation (db : DB) (mid : Option ℤ) (u pid : ℤ)
    (pname : String) (y m : ℤ) : ℤ :=
  ((db.assignments.filter
      (fun asg => asg.user_id == u && asg.project_id == pid)).map
    (fun asg =>
      ((db.projects.filter (fun p =>
          p.id == asg.project_id && p.name == pname &&
          (match mid with
           | none => true
           | some a => p.manager_id == some a))).map
        (fun _p =>
          ((db.allocations.filter (fun al =>
            al.project_assignment_id == asg.id && al.year == y &&
              al.month == m)).map (·.allocated_hours)).sum)).sum)).sum

/-- `get_user_role_funding_totals`: the funded-hours aggregate for one
`(user, role_name)` group (the join with `roles` may multiply rows when
several roles share a name, which the nested sum reproduces). -/
def user_role_funding_total (db : DB) (mid : Option ℤ) (u : ℤ)
    (rname : String) : ℤ :=
  (((scoped_assignments db mid).filter (fun asg => asg.user_id == u)).map
    (fun asg =>
      ((db.roles.filter (fun r => r.id == asg.role_id && r.name == rname)).map
        (fun _r => asg.funded_hours)).sum)).sum

/-- The sub-database holding only manager `mid`'s rows: their projects, the
assignments on those projects, and those assignments' allocations (roles and
users are not owner-filtered by the aggregation queries). -/
def restrict_db (db : DB) (mid : ℤ) : DB :=
  let keptAssignments := db.assignments.filter (keep_assignment db mid)
  { projects := db.projects.filter (fun p => p.manager_id == some mid)
    roles := db.roles
    users := db.users
    assignments := keptAssignments
    allocations := db.allocations.filter (fun al =>
      keptAssignments.any (fun asg => asg.id == al.project_assignment_id)) }

/-- `get_portfolio_dashboard`'s project count: the filter
`Project.manager_id == manager_id` is applied unconditionally, so a `none`
scope becomes SQL `manager_id IS NULL`. -/
def total_projects_count (db : DB) (mid : Option ℤ) : ℕ :=
  (db.projects.filter (fun p => p.manager_id == mid)).length

/-- `get_portfolio_dashboard`'s employee count: system-role filter plus the
unconditional `User.manager_id == manager_id` filter (SQL `IS NULL` for
`none`). -/
def total_employees_count (db : DB) (mid : Option ℤ) : ℕ :=
  (db.users.filter (fun u =>
    u.system_role == SystemRole.EMPLOYEE && u.manager_id == mid)).length

/-- Reassign every project's manager — used to state that the crud
aggregations with scope omitted ignore managers entirely. -/
def map_project_managers (f : Project → Option ℤ) (db : DB) : DB :=
  { db with projects := db.projects.map (fun p => { p with manager_id := f p }) }

/-! ## Portfolio dashboard employee classification
(`app/api/reports.py`, lines 230-251) -/

/-- `current_hours / standard_hours_this_month if standard_hours_this_month
else 0.0`. -/
def employee_current_fte (current_hours : ℤ) (standard_hours_this_month : ℤ) : ℚ :=
  if standard_hours_this_month ≠ 0 then
    (current_hours : ℚ) / (standard_hours_this_month : ℚ)
  else 0

/-- The over-allocated bucket: employees (paired with their current-month
hours) whose FTE is strictly greater than 1. -/
def over_allocated_employees (emps : List (ℤ × ℤ)) (std : ℤ) : List (ℤ × ℤ) :=
  emps.filter (fun e => decide (1 < employee_current_fte e.2 std))

/-- The bench bucket: the `elif` branch — not over-allocated, and FTE at most
0.25. -/
def bench_employees (emps : List (ℤ × ℤ)) (std : ℤ) : List (ℤ × ℤ) :=
  emps.filter (fun e =>
    decide (¬ 1 < employee_current_fte e.2 std ∧
      employee_current_fte e.2 std ≤ 1/4))

/-! # Theorems -/

/-! ## Rounding -/

theorem qfloor_eq (q : ℚ) : qfloor q = ⌊q⌋ := Rat.floor_def.symm

theorem qfloor_le (q : ℚ) : (qfloor q : ℚ) ≤ q := by
  rw [qfloor_eq]; exact Int.floor_le q

theorem lt_qfloor_add_one (q : ℚ) : q < qfloor q + 1 := by
  rw [qfloor_eq]; exact_mod_cast Int.lt_floor_add_one q

theorem qfloor_nonneg {q : ℚ} (h : 0 ≤ q) : 0 ≤ qfloor q := by
  rw [qfloor_eq]; exact Int.floor_nonneg.mpr h

theorem qfloor_intCast (k : ℤ) : qfloor (k : ℚ) = k := by
  rw [qfloor_eq]; simp

theorem qfloor_mono {x y : ℚ} (h : x ≤ y) : qfloor x ≤ qfloor y := by
  rw [qfloor_eq, qfloor_eq]; exact Int.floor_le_floor h

theorem roundHalfEven_intCast (k : ℤ) : roundHalfEven (k : ℚ) = k := by
  simp [roundHalfEven, qfloor_intCast]

theorem roundHalfEven_nonneg {x : ℚ} (hx : 0 ≤ x) : 0 ≤ roundHalfEven x := by
  unfold roundHalfEven
  have h0 : (0 : ℤ) ≤ qfloor x := qfloor_nonneg hx
  dsimp only
  split
  · exact h0
  · split
    · omega
    · split
      · exact h0
      · omega

theorem abs_roundHalfEven_sub (x : ℚ) : |(roundHalfEven x : ℚ) - x| ≤ 1/2 := by
  unfold roundHalfEven
  have h1 : (qfloor x : ℚ) ≤ x := qfloor_le x
  have h2 : x < (qfloor x : ℚ) + 1 := lt_qfloor_add_one x
  dsimp only
  split
  · rw [abs_sub_comm, abs_of_nonneg (by linarith)]
    linarith
  · rename_i hlt
    push_neg at hlt
    split
    · rename_i hgt
      push_cast
      rw [abs_of_nonneg (by linarith)]
      linarith
    · rename_i hgt
      push_neg at hgt
      have : x - (qfloor x : ℚ) = 1/2 := le_antisymm hgt hlt
      split
      · rw [abs_sub_comm, abs_of_nonneg (by linarith)]
        linarith
      · push_cast
        rw [abs_of_nonneg (by linarith)]
        linarith

theorem round2_nonneg {x : ℚ} (hx : 0 ≤ x) : 0 ≤ round2 x := by
  unfold round2
  have : 0 ≤ roundHalfEven (100 * x) := roundHalfEven_nonneg (by linarith)
  positivity

theorem abs_round2_sub (x : ℚ) : |round2 x - x| ≤ 1/200 := by
  unfold round2
  have h := abs_roundHalfEven_sub (100 * x)
  have h100 : |((roundHalfEven (100 * x) : ℚ) - 100 * x) / 100| ≤ (1/2) / 100 := by
    rw [abs_div]
    have : |(100 : ℚ)| = 100 := by norm_num
    rw [this]
    linarith
  calc |(roundHalfEven (100 * x) : ℚ) / 100 - x|
      = |((roundHalfEven (100 * x) : ℚ) - 100 * x) / 100| := by ring_nf
    _ ≤ (1/2) / 100 := h100
    _ = 1/200 := by norm_num

theorem isCent_round2 (x : ℚ) : IsCent (round2 x) :=
  ⟨roundHalfEven (100 * x), rfl⟩

theorem round2_isCent {x : ℚ} (hx : IsCent x) : round2 x = x := by
  obtain ⟨k, rfl⟩ := hx
  unfold round2
  have : (100 : ℚ) * ((k : ℚ) / 100) = (k : ℚ) := by ring
  rw [this, roundHalfEven_intCast]

theorem isCent_add {x y : ℚ} (hx : IsCent x) (hy : IsCent y) : IsCent (x + y) := by
  obtain ⟨a, rfl⟩ := hx
  obtain ⟨b, rfl⟩ := hy
  exact ⟨a + b, by push_cast; ring⟩

theorem isCent_zero : IsCent 0 := ⟨0, by norm_num⟩

theorem isCent_sum {l : List ℚ} (h : ∀ x ∈ l, IsCent x) : IsCent l.sum := by
  induction l with
  | nil => simpa using isCent_zero
  | cons a t ih =>
    rw [List.sum_cons]
    exact isCent_add (h a (by simp)) (ih fun x hx => h x (by simp [hx]))

theorem isCent_neg {x : ℚ} (hx : IsCent x) : IsCent (-x) := by
  obtain ⟨a, rfl⟩ := hx
  exact ⟨-a, by push_cast; ring⟩

theorem isCent_sub {x y : ℚ} (hx : IsCent x) (hy : IsCent y) : IsCent (x - y) := by
  rw [sub_eq_add_neg]
  exact isCent_add hx (isCent_neg hy)

theorem roundHalfEven_le_bounds (x : ℚ) :
    qfloor x ≤ roundHalfEven x ∧ roundHalfEven x ≤ qfloor x + 1 := by
  unfold roundHalfEven
  dsimp only
  split
  · omega
  · split
    · omega
    · split
      · omega
      · omega

theorem roundHalfEven_mono {x y : ℚ} (h : x ≤ y) : roundHalfEven x ≤ roundHalfEven y := by
  have hf := qfloor_mono h
  rcases lt_or_eq_of_le hf with hlt | heq
  · have h1 := roundHalfEven_le_bounds x
    have h2 := roundHalfEven_le_bounds y
    omega
  · have hxy : x - (qfloor x : ℚ) ≤ y - (qfloor x : ℚ) := by linarith
    unfold roundHalfEven
    dsimp only
    rw [← heq]
    by_cases hx1 : x - (qfloor x : ℚ) < 1/2
    · rw [if_pos hx1]
      split
      · omega
      · split
        · omega
        · split
          · omega
          · omega
    · push_neg at hx1
      rw [if_neg (not_lt.mpr hx1)]
      by_cases hx2 : 1/2 < x - (qfloor x : ℚ)
      · rw [if_pos hx2]
        have hy2 : 1/2 < y - (qfloor x : ℚ) := lt_of_lt_of_le hx2 hxy
        rw [if_neg (not_lt.mpr (le_of_lt hy2)), if_pos hy2]
      · push_neg at hx2
        rw [if_neg (not_lt.mpr hx2)]
        have hy1 : ¬ y - (qfloor x : ℚ) < 1/2 := by
          push_neg
          linarith
        rw [if_neg hy1]
        by_cases hy2 : 1/2 < y - (qfloor x : ℚ)
        · rw [if_pos hy2]
          split
          · omega
          · omega
        · rw [if_neg hy2]

theorem round2_mono {x y : ℚ} (h : x ≤ y) : round2 x ≤ round2 y := by
  unfold round2
  have h1 := roundHalfEven_mono (show 100 * x ≤ 100 * y by linarith)
  have h2 : (roundHalfEven (100 * x) : ℚ) ≤ (roundHalfEven (100 * y) : ℚ) := by
    exact_mod_cast h1
  linarith

/-! ## Month capacity -/

theorem one_le_month_capacity (y m : ℤ) (ov : Overrides) :
    1 ≤ month_capacity_hours y m ov := by
  unfold month_capacity_hours
  have hfb : 1 ≤ max (standard_month_hours y m) 1 := le_max_right _ _
  match ov with
  | none => exact hfb
  | some l =>
    dsimp only
    split
    · exact hfb
    · split
      · rename_i v hv
        split
        · omega
        · exact hfb
      · exact hfb

theorem sum_ge_length_int {l : List ℤ} (h : ∀ x ∈ l, 1 ≤ x) :
    (l.length : ℤ) ≤ l.sum := by
  induction l with
  | nil => simp
  | cons a t ih =>
    have ha : 1 ≤ a := h a (by simp)
    have ht : (t.length : ℤ) ≤ t.sum := ih fun x hx => h x (by simp [hx])
    simp only [List.length_cons, List.sum_cons]
    push_cast
    linarith

/-- C6: `month_capacity_hours` returns the override's value when an entry for
`(year, month)` exists and is strictly positive; otherwise (no overrides map,
no entry, or an entry ≤ 0) it returns `max(standard_month_hours(year, month),
1)`; consequently the result is always ≥ 1. -/
theorem month_capacity_hours_spec (y m : ℤ) (ov : Overrides) :
    (∀ l v, ov = some l → l.lookup (y, m) = some v → 0 < v →
      month_capacity_hours y m ov = v) ∧
    (∀ l v, ov = some l → l.lookup (y, m) = some v → v ≤ 0 →
      month_capacity_hours y m ov = max (standard_month_hours y m) 1) ∧
    ((ov = none ∨ ∃ l, ov = some l ∧ l.lookup (y, m) = none) →
      month_capacity_hours y m ov = max (standard_month_hours y m) 1) ∧
    1 ≤ month_capacity_hours y m ov := by
  refine ⟨?_, ?_, ?_, one_le_month_capacity y m ov⟩
  · intro l v hov hlk hpos
    subst hov
    unfold month_capacity_hours
    have hne : l.isEmpty = false := by
      cases l with
      | nil => simp at hlk
      | cons a t => simp
    simp only [hne, Bool.false_eq_true, if_false, hlk]
    exact if_pos hpos
  · intro l v hov hlk hnonpos
    subst hov
    unfold month_capacity_hours
    have hne : l.isEmpty = false := by
      cases l with
      | nil => simp at hlk
      | cons a t => simp
    simp only [hne, Bool.false_eq_true, if_false, hlk]
    exact if_neg (not_lt.mpr hnonpos)
  · rintro (rfl | ⟨l, rfl, hlk⟩)
    · rfl
    · unfold month_capacity_hours
      cases he : l.isEmpty with
      | true => simp [he]
      | false => simp [he, hlk]

theorem month_capacity_hours_spec_witness :
    month_capacity_hours 2025 1 (some [((2025, 1), 5)]) = 5 ∧
    month_capacity_hours 2025 2 (some [((2025, 2), 0)]) =
      max (standard_month_hours 2025 2) 1 ∧
    month_capacity_hours 2025 3 none = max (standard_month_hours 2025 3) 1 :=
  ⟨(month_capacity_hours_spec 2025 1 (some [((2025, 1), 5)])).1
      [((2025, 1), 5)] 5 rfl (by decide) (by decide),
   (month_capacity_hours_spec 2025 2 (some [((2025, 2), 0)])).2.1
      [((2025, 2), 0)] 0 rfl (by decide) (by decide),
   (month_capacity_hours_spec 2025 3 none).2.2.1 (Or.inl rfl)⟩

/-- C9: each per-window capacity inside `planned_hours_distribution` is ≥ 1,
so for a non-empty window list the total capacity is at least the number of
windows and strictly positive: the zero-total-capacity fallback branch cannot
fire and `total_hours / total_capacity` never divides by zero. -/
theorem capacities_positive_total (w : List MonthKey) (ov : Overrides)
    (hw : w ≠ []) :
    (∀ c ∈ capacities w ov, 1 ≤ c) ∧
    (w.length : ℤ) ≤ (capacities w ov).sum ∧
    0 < (capacities w ov).sum ∧
    ¬ (capacities w ov).sum ≤ 0 ∧
    ((capacities w ov).sum : ℚ) ≠ 0 := by
  have hone : ∀ c ∈ capacities w ov, 1 ≤ c := by
    intro c hc
    unfold capacities at hc
    obtain ⟨p, _, rfl⟩ := List.mem_map.mp hc
    exact one_le_month_capacity p.1 p.2 ov
  have hlen : (capacities w ov).length = w.length := by
    unfold capacities
    exact List.length_map _ _
  have hsum : (w.length : ℤ) ≤ (capacities w ov).sum := by
    have := sum_ge_length_int hone
    rwa [hlen] at this
  have hpos : 0 < (capacities w ov).sum := by
    have hlenpos : 0 < w.length := List.length_pos.mpr hw
    have : (0 : ℤ) < (w.length : ℤ) := by exact_mod_cast hlenpos
    linarith
  refine ⟨hone, hsum, hpos, not_le.mpr hpos, ?_⟩
  have : ((capacities w ov).sum : ℚ) > 0 := by exact_mod_cast hpos
  linarith

/-! ## Planned-hours distribution -/

theorem adjustLast_length (d : ℚ) : ∀ l : List ℚ, (adjustLast d l).length = l.length := by
  intro l
  induction l with
  | nil => rfl
  | cons a t ih =>
    cases t with
    | nil => rfl
    | cons b t2 => simpa [adjustLast] using ih

theorem adjustLast_sum_cent (d : ℚ) (hd : IsCent d) :
    ∀ l : List ℚ, l ≠ [] → (∀ x ∈ l, IsCent x) →
      (adjustLast d l).sum = l.sum + d := by
  intro l
  induction l with
  | nil => intro h; exact absurd rfl h
  | cons a t ih =>
    intro _ hc
    cases t with
    | nil =>
      have ha : IsCent a := hc a (by simp)
      simp only [adjustLast, List.sum_cons, List.sum_nil,
        round2_isCent (isCent_add ha hd)]
      ring
    | cons b t2 =>
      have ht : (adjustLast d (b :: t2)).sum = (b :: t2).sum + d :=
        ih (by simp) (fun x hx => hc x (by simp [hx]))
      simp only [adjustLast, List.sum_cons] at ht ⊢
      linarith

theorem adjustLast_dropLast (d : ℚ) :
    ∀ l : List ℚ, (adjustLast d l).dropLast = l.dropLast := by
  intro l
  induction l with
  | nil => rfl
  | cons a t ih =>
    cases t with
    | nil => rfl
    | cons b t2 =>
      show (a :: adjustLast d (b :: t2)).dropLast = (a :: b :: t2).dropLast
      cases he : adjustLast d (b :: t2) with
      | nil =>
        have hl := adjustLast_length d (b :: t2)
        rw [he] at hl
        simp at hl
      | cons c u =>
        have h2 : (c :: u).dropLast = (b :: t2).dropLast := by
          rw [← he]
          exact ih
        show a :: (c :: u).dropLast = (a :: b :: t2).dropLast
        rw [h2]
        rfl

theorem distribution_rounded_cent (t : ℚ) (w : List MonthKey) (ov : Overrides) :
    ∀ x ∈ distribution_rounded t w ov, IsCent x := by
  intro x hx
  unfold distribution_rounded at hx
  obtain ⟨c, _, rfl⟩ := List.mem_map.mp hx
  exact isCent_round2 _

theorem distribution_total_capacity_pos (w : List MonthKey) (ov : Overrides)
    (hw : w ≠ []) : 0 < distribution_total_capacity w ov := by
  unfold distribution_total_capacity
  split
  · exact_mod_cast List.length_pos.mpr hw
  · rename_i h
    omega

theorem distribution_scale_nonneg (t : ℚ) (w : List MonthKey) (ov : Overrides)
    (ht : 0 ≤ t) (hw : w ≠ []) : 0 ≤ distribution_scale t w ov := by
  unfold distribution_scale
  split
  · have := distribution_total_capacity_pos w ov hw
    have hq : (0 : ℚ) < (distribution_total_capacity w ov : ℚ) := by exact_mod_cast this
    positivity
  · exact le_refl 0

theorem distribution_caps_nonneg (w : List MonthKey) (ov : Overrides) :
    ∀ c ∈ distribution_caps w ov, 0 ≤ c := by
  intro c hc
  unfold distribution_caps at hc
  split at hc
  · rw [List.eq_of_mem_replicate hc]
    norm_num
  · unfold capacities at hc
    obtain ⟨p, _, rfl⟩ := List.mem_map.mp hc
    have := one_le_month_capacity p.1 p.2 ov
    omega

theorem distribution_rounded_nonneg (t : ℚ) (w : List MonthKey) (ov : Overrides)
    (ht : 0 ≤ t) (hw : w ≠ []) : ∀ x ∈ distribution_rounded t w ov, 0 ≤ x := by
  intro x hx
  unfold distribution_rounded at hx
  obtain ⟨q, hq, rfl⟩ := List.mem_map.mp hx
  obtain ⟨c, hc, rfl⟩ := List.mem_map.mp hq
  have h1 : 0 ≤ (c : ℚ) := by exact_mod_cast distribution_caps_nonneg w ov c hc
  have h2 := distribution_scale_nonneg t w ov ht hw
  exact round2_nonneg (by positivity)

theorem distribution_caps_length (w : List MonthKey) (ov : Overrides) :
    (distribution_caps w ov).length = w.length := by
  unfold distribution_caps
  split
  · simp only [List.length_replicate]
  · simp only [capacities, List.length_map]

theorem distribution_rounded_length (t : ℚ) (w : List MonthKey) (ov : Overrides) :
    (distribution_rounded t w ov).length = w.length := by
  unfold distribution_rounded
  simp [distribution_caps_length]

theorem distribution_rounded_ne_nil (t : ℚ) (w : List MonthKey) (ov : Overrides)
    (hw : w ≠ []) : distribution_rounded t w ov ≠ [] := by
  intro h
  have h0 : w.length = 0 := by
    have := congrArg List.length h
    rwa [distribution_rounded_length t w ov] at this
  exact hw (List.length_eq_zero.mp h0)

theorem planned_hours_distribution_length (t : ℚ) (w : List MonthKey)
    (ov : Overrides) : (planned_hours_distribution t w ov).length = w.length := by
  unfold planned_hours_distribution
  split
  · rename_i h
    simp [h]
  · rw [adjustLast_length, distribution_rounded_length]

/-- C1: for `total_hours ≥ 0` the returned distribution sums to `total_hours`
to within two-decimal rounding (at most half a hundredth away, and exactly
equal whenever `total_hours` is itself a two-decimal quantity, the last
element having absorbed the drift); an empty `month_windows` yields `[]`. -/
theorem planned_hours_distribution_sum_spec (t : ℚ) (ht : 0 ≤ t)
    (w : List MonthKey) (ov : Overrides) :
    (w = [] → planned_hours_distribution t w ov = []) ∧
    (w ≠ [] →
      |(planned_hours_distribution t w ov).sum - t| ≤ 1/200 ∧
      (IsCent t → (planned_hours_distribution t w ov).sum = t)) := by
  constructor
  · intro h
    simp [planned_hours_distribution, h]
  · intro hw
    have hR := distribution_rounded_cent t w ov
    have hne := distribution_rounded_ne_nil t w ov hw
    have hsum : (planned_hours_distribution t w ov).sum =
        (distribution_rounded t w ov).sum +
          round2 (t - (distribution_rounded t w ov).sum) := by
      unfold planned_hours_distribution
      rw [if_neg hw]
      exact adjustLast_sum_cent _ (isCent_round2 _) _ hne hR
    constructor
    · rw [hsum]
      have habs := abs_round2_sub (t - (distribution_rounded t w ov).sum)
      calc |(distribution_rounded t w ov).sum +
            round2 (t - (distribution_rounded t w ov).sum) - t|
          = |round2 (t - (distribution_rounded t w ov).sum) -
             (t - (distribution_rounded t w ov).sum)| := by ring_nf
        _ ≤ 1/200 := habs
    · intro hcent
      rw [hsum, round2_isCent (isCent_sub hcent (isCent_sum hR))]
      ring

theorem planned_hours_distribution_sum_spec_witness :
    (0 : ℚ) ≤ 320 ∧
    ([((2025 : ℤ), (1 : ℤ)), (2025, 2)] : List MonthKey) ≠ [] ∧
    IsCent (320 : ℚ) ∧
    (planned_hours_distribution 320 [((2025 : ℤ), (1 : ℤ)), (2025, 2)] none).sum = 320 :=
  ⟨by norm_num, by simp, ⟨32000, by norm_num⟩,
    ((planned_hours_distribution_sum_spec 320 (by norm_num)
        [((2025 : ℤ), (1 : ℤ)), (2025, 2)] none).2 (by simp)).2 ⟨32000, by norm_num⟩⟩

theorem capacities_positive_total_witness :
    ([((2025 : ℤ), (1 : ℤ))] : List MonthKey) ≠ [] ∧
    0 < (capacities [((2025 : ℤ), (1 : ℤ))] none).sum :=
  ⟨by simp, (capacities_positive_total [((2025 : ℤ), (1 : ℤ))] none (by simp)).2.2.1⟩

/-! ## Month enumeration -/

theorem monthsFrom_idx_le : ∀ (k : ℕ) (y m : ℤ), ∀ p ∈ monthsFrom y m k,
    12 * y + m ≤ 12 * p.1 + p.2 := by
  intro k
  induction k with
  | zero => intro y m p hp; simp [monthsFrom] at hp
  | succ k ih =>
    intro y m p hp
    rw [monthsFrom] at hp
    rcases List.mem_cons.mp hp with rfl | hp
    · simp
    · by_cases hm12 : m = 12
      · rw [if_pos hm12] at hp
        have := ih (y + 1) 1 p hp
        omega
      · rw [if_neg hm12] at hp
        have := ih y (m + 1) p hp
        omega

theorem monthsFrom_nodup : ∀ (k : ℕ) (y m : ℤ), (monthsFrom y m k).Nodup := by
  intro k
  induction k with
  | zero => intro y m; simp [monthsFrom]
  | succ k ih =>
    intro y m
    rw [monthsFrom]
    refine List.nodup_cons.mpr ⟨?_, ?_⟩
    · intro hmem
      by_cases hm12 : m = 12
      · rw [if_pos hm12] at hmem
        have h2 : 12 * (y + 1) + 1 ≤ 12 * y + m :=
          monthsFrom_idx_le k (y + 1) 1 (y, m) hmem
        omega
      · rw [if_neg hm12] at hmem
        have h2 : 12 * y + (m + 1) ≤ 12 * y + m :=
          monthsFrom_idx_le k y (m + 1) (y, m) hmem
        omega
    · by_cases hm12 : m = 12
      · rw [if_pos hm12]; exact ih (y + 1) 1
      · rw [if_neg hm12]; exact ih y (m + 1)

theorem iter_months_nodup (s e : PyDate) : (iter_months s e).Nodup := by
  unfold iter_months
  split
  · simp
  · exact monthsFrom_nodup _ _ _

theorem iter_months_eq_nil_iff (s e : PyDate) :
    iter_months s e = [] ↔ dateLtB e s = true := by
  unfold iter_months
  split
  · rename_i h
    simp [h]
  · rename_i h
    simp only [Bool.not_eq_true] at h
    rw [monthSpan]
    simp [monthsFrom, h]

/-! ## Even-distribution shares -/

theorem range_map_base_ite (n : ℕ) (b rem : ℤ) (h0 : 0 ≤ rem) (h1 : rem ≤ (n : ℤ)) :
    (List.range n).map (fun (i : ℕ) => b + if (i : ℤ) < rem then 1 else 0) =
      List.replicate rem.toNat (b + 1) ++ List.replicate (n - rem.toNat) b := by
  have hrn : rem.toNat ≤ n := by omega
  have hsplit : n = rem.toNat + (n - rem.toNat) := by omega
  rw [hsplit, List.range_add, List.map_append]
  congr 1
  · apply List.eq_replicate_iff.mpr
    refine ⟨by simp, ?_⟩
    intro x hx
    obtain ⟨i, hi, rfl⟩ := List.mem_map.mp hx
    have hilt : i < rem.toNat := List.mem_range.mp hi
    have hlt : (i : ℤ) < rem := by omega
    rw [if_pos hlt]
  · rw [List.map_map]
    apply List.eq_replicate_iff.mpr
    refine ⟨by simp, ?_⟩
    intro x hx
    obtain ⟨i, hi, rfl⟩ := List.mem_map.mp hx
    simp only [Function.comp]
    have hge : ¬ ((((rem.toNat + i : ℕ) : ℤ)) < rem) := by
      push_cast
      omega
    rw [if_neg hge, add_zero]

theorem distribution_hours_snd (total : ℤ) (months : List MonthKey) :
    (distribution_hours total months).map (·.2) =
      (List.range months.length).map
        (fun (i : ℕ) => total / (months.length : ℤ) +
          if (i : ℤ) < total % (months.length : ℤ) then 1 else 0) := by
  unfold distribution_hours
  rw [List.map_map, ← List.enum_map_fst months, List.map_map]
  rfl

theorem distribution_hours_fst (total : ℤ) (months : List MonthKey) :
    (distribution_hours total months).map (·.1) = months := by
  unfold distribution_hours
  rw [List.map_map]
  exact List.enum_map_snd months

/-- C3: over a non-empty month range of `n` months, each month receives
`total / n` (floor) hours, with the `total % n` spare hours handed one each to
the earliest months, so the shares sum to `total` and no two shares differ by
more than one; the shares are keyed by the months in order. -/
theorem distribution_hours_spec (total : ℤ) (months : List MonthKey)
    (htotal : 0 ≤ total) (hm : months ≠ []) :
    ((distribution_hours total months).map (·.2) =
      List.replicate (total % (months.length : ℤ)).toNat
          (total / (months.length : ℤ) + 1) ++
        List.replicate (months.length - (total % (months.length : ℤ)).toNat)
          (total / (months.length : ℤ))) ∧
    ((distribution_hours total months).map (·.2)).sum = total ∧
    (∀ x ∈ (distribution_hours total months).map (·.2),
      ∀ y ∈ (distribution_hours total months).map (·.2), x - y ≤ 1) ∧
    (distribution_hours total months).map (·.1) = months := by
  have hn : 0 < months.length := List.length_pos.mpr hm
  have hnz : ((months.length : ℤ)) ≠ 0 := by exact_mod_cast Nat.pos_iff_ne_zero.mp hn
  have hnpos : (0 : ℤ) < (months.length : ℤ) := by exact_mod_cast hn
  have hr0 : 0 ≤ total % (months.length : ℤ) := Int.emod_nonneg total hnz
  have hr1 : total % (months.length : ℤ) < (months.length : ℤ) :=
    Int.emod_lt_of_pos total hnpos
  have hform : (distribution_hours total months).map (·.2) =
      List.replicate (total % (months.length : ℤ)).toNat
          (total / (months.length : ℤ) + 1) ++
        List.replicate (months.length - (total % (months.length : ℤ)).toNat)
          (total / (months.length : ℤ)) := by
    rw [distribution_hours_snd]
    exact range_map_base_ite months.length _ _ hr0 (le_of_lt hr1)
  refine ⟨hform, ?_, ?_, distribution_hours_fst total months⟩
  · rw [hform, List.sum_append, List.sum_replicate, List.sum_replicate,
      nsmul_eq_mul, nsmul_eq_mul]
    have hcast : ((total % (months.length : ℤ)).toNat : ℤ) =
        total % (months.length : ℤ) := Int.toNat_of_nonneg hr0
    have hcast2 : ((months.length - (total % (months.length : ℤ)).toNat : ℕ) : ℤ) =
        (months.length : ℤ) - total % (months.length : ℤ) := by
      push_cast
      omega
    rw [hcast, hcast2]
    have hdm := Int.ediv_add_emod total (months.length : ℤ)
    ring_nf
    ring_nf at hdm
    linarith
  · intro x hx y hy
    rw [hform] at hx hy
    have hcase : ∀ z ∈ List.replicate (total % (months.length : ℤ)).toNat
          (total / (months.length : ℤ) + 1) ++
        List.replicate (months.length - (total % (months.length : ℤ)).toNat)
          (total / (months.length : ℤ)),
        z = total / (months.length : ℤ) + 1 ∨ z = total / (months.length : ℤ) := by
      intro z hz
      rcases List.mem_append.mp hz with h | h
      · exact Or.inl (List.eq_of_mem_replicate h)
      · exact Or.inr (List.eq_of_mem_replicate h)
    rcases hcase x hx with rfl | rfl <;> rcases hcase y hy with h | h <;> omega

theorem distribution_hours_spec_witness :
    (0 : ℤ) ≤ 100 ∧
    ([((2025 : ℤ), (1 : ℤ)), (2025, 2), (2025, 3)] : List MonthKey) ≠ [] ∧
    (distribution_hours 100 [((2025 : ℤ), (1 : ℤ)), (2025, 2), (2025, 3)]).map (·.2) =
      [34, 33, 33] := by
  refine ⟨by norm_num, by simp, ?_⟩
  have h := (distribution_hours_spec 100
    [((2025 : ℤ), (1 : ℤ)), (2025, 2), (2025, 3)] (by norm_num) (by simp)).1
  rw [h]
  decide

/-! ## Allocator validation (C4) -/

/-- C4: the endpoint rejects with a validation error exactly when a non-"even"
strategy is requested, the requested month range contains no months (which
happens exactly when the end date precedes the start date), or the resolved
total is negative; and an omitted `total_hours` resolves to
`max(funded_hours − Σ existing allocated_hours, 0)`, which is never negative.
Rejections happen before the write section, so no allocation is written. -/
theorem distribute_assignment_hours_rejections (aid funded : ℤ)
    (db : List Allocation) (req : AllocationDistributionRequest) :
    ((∃ out, distribute_assignment_hours aid funded db req = .ok out) ↔
      (strategyRejected req.strategy = false ∧
        iter_months ⟨req.start_year, req.start_month, 1⟩
          ⟨req.end_year, req.end_month, 1⟩ ≠ [] ∧
        (0 : ℤ) ≤ (match req.total_hours with
             | some t => t
             | none => max (funded -
                 ((db.filter (fun a => a.project_assignment_id == aid)).map
                   (·.allocated_hours)).sum) 0))) ∧
    (iter_months ⟨req.start_year, req.start_month, 1⟩
        ⟨req.end_year, req.end_month, 1⟩ = [] ↔
      dateLtB ⟨req.end_year, req.end_month, 1⟩
        ⟨req.start_year, req.start_month, 1⟩ = true) ∧
    (req.total_hours = none →
      (0 : ℤ) ≤ (match req.total_hours with
           | some t => t
           | none => max (funded -
               ((db.filter (fun a => a.project_assignment_id == aid)).map
                 (·.allocated_hours)).sum) 0)) := by
  refine ⟨?_, iter_months_eq_nil_iff _ _, ?_⟩
  · unfold distribute_assignment_hours
    by_cases hs : strategyRejected req.strategy = true
    · rw [if_pos hs]
      constructor
      · rintro ⟨out, hout⟩
        cases hout
      · rintro ⟨hs', -, -⟩
        rw [hs] at hs'
        cases hs'
    · have hs' : strategyRejected req.strategy = false := by
        simpa using hs
      rw [if_neg hs]
      by_cases hm : iter_months ⟨req.start_year, req.start_month, 1⟩
          ⟨req.end_year, req.end_month, 1⟩ = []
      · rw [if_pos hm]
        constructor
        · rintro ⟨out, hout⟩
          cases hout
        · rintro ⟨-, hm', -⟩
          exact absurd hm hm'
      · rw [if_neg hm]
        by_cases hT : (match req.total_hours with
            | some t => t
            | none => max (funded -
                ((db.filter (fun a => a.project_assignment_id == aid)).map
                  (·.allocated_hours)).sum) 0) < (0 : ℤ)
        · rw [if_pos hT]
          constructor
          · rintro ⟨out, hout⟩
            cases hout
          · rintro ⟨-, -, hT'⟩
            omega
        · rw [if_neg hT]
          have hlen : ¬ ((iter_months ⟨req.start_year, req.start_month, 1⟩
              ⟨req.end_year, req.end_month, 1⟩).length : ℤ) = 0 := by
            intro h0
            have : (iter_months ⟨req.start_year, req.start_month, 1⟩
                ⟨req.end_year, req.end_month, 1⟩).length = 0 := by exact_mod_cast h0
            exact hm (List.length_eq_zero.mp this)
          rw [if_neg hlen]
          constructor
          · intro _
            exact ⟨hs', hm, by omega⟩
          · intro _
            exact ⟨_, rfl⟩
  · intro h
    rw [h]
    exact le_max_right _ _

/-! ## Allocator frame property (C10) -/

theorem lookup_eq_none_of_not_mem_keys {l : List (MonthKey × ℤ)} {k : MonthKey}
    (h : k ∉ l.map (·.1)) : l.lookup k = none := by
  induction l with
  | nil => rfl
  | cons p t ih =>
    obtain ⟨pk, pv⟩ := p
    simp only [List.map_cons, List.mem_cons] at h
    push_neg at h
    rw [List.lookup_cons]
    have : (k == pk) = false := by
      simp only [beq_eq_false_iff_ne, ne_eq]
      exact h.1
    rw [this]
    exact ih h.2

theorem filter_map_of_pred_invariant {α} {f : α → α} {p : α → Bool}
    (hpf : ∀ a, p (f a) = p a) (hid : ∀ a, p a = true → f a = a) :
    ∀ l : List α, (l.map f).filter p = l.filter p := by
  intro l
  induction l with
  | nil => rfl
  | cons a t ih =>
    simp only [List.map_cons, List.filter_cons, hpf a]
    cases hp : p a with
    | true => rw [hid a hp, ih]
    | false => exact ih

theorem filter_map_comm_of_pred_invariant {α} {f : α → α} {p : α → Bool}
    (hpf : ∀ a, p (f a) = p a) :
    ∀ l : List α, (l.map f).filter p = (l.filter p).map f := by
  intro l
  induction l with
  | nil => rfl
  | cons a t ih =>
    simp only [List.map_cons, List.filter_cons, hpf a]
    cases hp : p a <;> simp [ih]

theorem length_filter_le_one {α} {Q : α → Bool} :
    ∀ {l : List α}, l.Pairwise (fun a b => Q a = true → Q b = true → False) →
      (l.filter Q).length ≤ 1 := by
  intro l
  induction l with
  | nil => simp
  | cons a t ih =>
    intro h
    rw [List.pairwise_cons] at h
    obtain ⟨ha, ht⟩ := h
    rw [List.filter_cons]
    cases hq : Q a with
    | true =>
      have hnil : t.filter Q = [] := by
        rw [List.filter_eq_nil_iff]
        intro b hb hqb
        exact ha b hb hq hqb
      simp [hnil]
    | false => simpa using ih ht

theorem filterMap_insert_count_zero (aid : ℤ) (check : MonthKey → Bool)
    (ym : MonthKey) :
    ∀ mh : List (MonthKey × ℤ), ym ∉ mh.map (·.1) →
      ((mh.filterMap (fun p => if check p.1 then none
          else some (⟨0, aid, p.1.1, p.1.2, p.2⟩ : Allocation))).filter
        (fun a => a.project_assignment_id == aid && a.year == ym.1 &&
          a.month == ym.2)).length = 0 := by
  intro mh
  induction mh with
  | nil => simp
  | cons p t ih =>
    intro h
    simp only [List.map_cons, List.mem_cons] at h
    push_neg at h
    obtain ⟨h1, h2⟩ := h
    by_cases hc : check p.1 = true
    · rw [List.filterMap_cons_none (by rw [if_pos hc])]
      exact ih h2
    · rw [List.filterMap_cons_some (by rw [if_neg hc])]
      rw [List.filter_cons]
      have hQ : ((⟨0, aid, p.1.1, p.1.2, p.2⟩ : Allocation).project_assignment_id
          == aid && (⟨0, aid, p.1.1, p.1.2, p.2⟩ : Allocation).year == ym.1 &&
          (⟨0, aid, p.1.1, p.1.2, p.2⟩ : Allocation).month == ym.2) = false := by
        simp only [Bool.and_eq_false_iff, beq_eq_false_iff_ne, ne_eq]
        by_cases hy : p.1.1 = ym.1
        · right
          intro hm
          exact h1 (Prod.ext hy hm).symm
        · left
          right
          exact hy
      rw [hQ]
      simp only [Bool.false_eq_true, if_false]
      exact ih h2

theorem filterMap_insert_count_one (aid : ℤ) (check : MonthKey → Bool)
    (ym : MonthKey) :
    ∀ mh : List (MonthKey × ℤ), (mh.map (·.1)).Nodup → ym ∈ mh.map (·.1) →
      check ym = false →
      ((mh.filterMap (fun p => if check p.1 then none
          else some (⟨0, aid, p.1.1, p.1.2, p.2⟩ : Allocation))).filter
        (fun a => a.project_assignment_id == aid && a.year == ym.1 &&
          a.month == ym.2)).length = 1 := by
  intro mh
  induction mh with
  | nil => simp
  | cons p t ih =>
    intro hnd hmem hck
    simp only [List.map_cons, List.nodup_cons] at hnd
    obtain ⟨hp1, hnd2⟩ := hnd
    simp only [List.map_cons, List.mem_cons] at hmem
    rcases hmem with heq | hmem2
    · have hcp : check p.1 = false := by rw [← heq]; exact hck
      have hcp' : ¬ check p.1 = true := by rw [hcp]; exact Bool.false_ne_true
      rw [List.filterMap_cons_some (by rw [if_neg hcp'])]
      rw [List.filter_cons]
      have hQ : ((⟨0, aid, p.1.1, p.1.2, p.2⟩ : Allocation).project_assignment_id
          == aid && (⟨0, aid, p.1.1, p.1.2, p.2⟩ : Allocation).year == ym.1 &&
          (⟨0, aid, p.1.1, p.1.2, p.2⟩ : Allocation).month == ym.2) = true := by
        rw [← heq]
        simp
      rw [hQ]
      simp only [if_true, List.length_cons]
      have hnot : ym ∉ t.map (·.1) := by
        rw [heq]
        exact hp1
      rw [filterMap_insert_count_zero aid check ym t hnot]
    · have hne : ym ≠ p.1 := by
        intro he
        rw [he] at hmem2
        exact hp1 hmem2
      by_cases hc : check p.1 = true
      · rw [List.filterMap_cons_none (by rw [if_pos hc])]
        exact ih hnd2 hmem2 hck
      · rw [List.filterMap_cons_some (by rw [if_neg hc])]
        rw [List.filter_cons]
        have hQ : ((⟨0, aid, p.1.1, p.1.2, p.2⟩ : Allocation).project_assignment_id
            == aid && (⟨0, aid, p.1.1, p.1.2, p.2⟩ : Allocation).year == ym.1 &&
            (⟨0, aid, p.1.1, p.1.2, p.2⟩ : Allocation).month == ym.2) = false := by
          simp only [Bool.and_eq_false_iff, beq_eq_false_iff_ne, ne_eq]
          by_cases hy : p.1.1 = ym.1
          · right
            intro hm
            exact hne (Prod.ext hy hm).symm
          · left
            right
            exact hy
        rw [hQ]
        simp only [Bool.false_eq_true, if_false]
        exact ih hnd2 hmem2 hck

/-- Success-shape inversion for `distribute_assignment_hours`: a successful
call returns the updated table `updated ++ inserts` for the validated months
and resolved total. -/
theorem distribute_ok_shape (aid funded : ℤ) (db : List Allocation)
    (req : AllocationDistributionRequest) (out : List Allocation)
    (hok : distribute_assignment_hours aid funded db req = .ok out) :
    ∃ T : ℤ,
      out =
        (db.map (fun a =>
          if a.project_assignment_id = aid then
            match (distribution_hours T
                (iter_months ⟨req.start_year, req.start_month, 1⟩
                  ⟨req.end_year, req.end_month, 1⟩)).lookup (a.year, a.month) with
            | some h => { a with allocated_hours := h }
            | none => a
          else a)) ++
        ((distribution_hours T
            (iter_months ⟨req.start_year, req.start_month, 1⟩
              ⟨req.end_year, req.end_month, 1⟩)).filterMap (fun p =>
          if (db.filter (fun a => a.project_assignment_id == aid)).any
              (fun a => a.year == p.1.1 && a.month == p.1.2) then none
          else
            some { id := 0, project_assignment_id := aid,
                   year := p.1.1, month := p.1.2, allocated_hours := p.2 })) := by
  unfold distribute_assignment_hours at hok
  by_cases hs : strategyRejected req.strategy = true
  · rw [if_pos hs] at hok
    cases hok
  · rw [if_neg hs] at hok
    by_cases hm : iter_months ⟨req.start_year, req.start_month, 1⟩
        ⟨req.end_year, req.end_month, 1⟩ = []
    · rw [if_pos hm] at hok
      cases hok
    · rw [if_neg hm] at hok
      by_cases hT0 : (match req.total_hours with
          | some t => t
          | none => max (funded -
              ((db.filter (fun a => a.project_assignment_id == aid)).map
                (·.allocated_hours)).sum) 0) < (0 : ℤ)
      · rw [if_pos hT0] at hok
        cases hok
      · rw [if_neg hT0] at hok
        by_cases hlen : ((iter_months ⟨req.start_year, req.start_month, 1⟩
            ⟨req.end_year, req.end_month, 1⟩).length : ℤ) = 0
        · rw [if_pos hlen] at hok
          cases hok
        · rw [if_neg hlen] at hok
          exact ⟨_, ((Except.ok.injEq _ _).mp hok).symm⟩

/-- C10: a successful even-distribution request touches only the requested
assignment's rows for months inside the requested range — rows of other
assignments and rows outside the range survive verbatim (same order) — and,
given the table's at-most-one-row-per-(assignment, year, month) invariant,
each in-range month ends with exactly one row for the assignment (updated in
place or freshly inserted, never duplicated). -/
theorem distribute_assignment_hours_frame (aid funded : ℤ)
    (db : List Allocation) (req : AllocationDistributionRequest)
    (out : List Allocation)
    (hok : distribute_assignment_hours aid funded db req = .ok out)
    (huniq : db.Pairwise (fun a b =>
      a.project_assignment_id = aid → b.project_assignment_id = aid →
        a.year = b.year → a.month = b.month → False)) :
    (out.filter (fun a => !(a.project_assignment_id == aid &&
        (iter_months ⟨req.start_year, req.start_month, 1⟩
          ⟨req.end_year, req.end_month, 1⟩).contains (a.year, a.month))) =
      db.filter (fun a => !(a.project_assignment_id == aid &&
        (iter_months ⟨req.start_year, req.start_month, 1⟩
          ⟨req.end_year, req.end_month, 1⟩).contains (a.year, a.month)))) ∧
    (∀ ym ∈ iter_months ⟨req.start_year, req.start_month, 1⟩
        ⟨req.end_year, req.end_month, 1⟩,
      (out.filter (fun a => a.project_assignment_id == aid &&
        a.year == ym.1 && a.month == ym.2)).length = 1) := by
  obtain ⟨T, rfl⟩ := distribute_ok_shape aid funded db req out hok
  constructor
  · rw [List.filter_append]
    have hins : ((distribution_hours T
        (iter_months ⟨req.start_year, req.start_month, 1⟩
          ⟨req.end_year, req.end_month, 1⟩)).filterMap (fun p =>
        if (db.filter (fun (a : Allocation) => a.project_assignment_id == aid)).any
            (fun (a : Allocation) => a.year == p.1.1 && a.month == p.1.2) then none
        else
          some ({ id := 0, project_assignment_id := aid,
                  year := p.1.1, month := p.1.2,
                  allocated_hours := p.2 } : Allocation))).filter
        (fun (a : Allocation) => !(a.project_assignment_id == aid &&
          (iter_months ⟨req.start_year, req.start_month, 1⟩
            ⟨req.end_year, req.end_month, 1⟩).contains (a.year, a.month))) = [] := by
      rw [List.filter_eq_nil_iff]
      intro a ha
      obtain ⟨p, hp, hpa⟩ := List.mem_filterMap.mp ha
      have hkey : (a.year, a.month) ∈
          iter_months ⟨req.start_year, req.start_month, 1⟩
            ⟨req.end_year, req.end_month, 1⟩ := by
        split at hpa
        · cases hpa
        · have := (Option.some.injEq _ _).mp hpa
          subst this
          have hp1 : p.1 ∈ (distribution_hours T
              (iter_months ⟨req.start_year, req.start_month, 1⟩
                ⟨req.end_year, req.end_month, 1⟩)).map (·.1) :=
            List.mem_map_of_mem _ hp
          rw [distribution_hours_fst] at hp1
          exact hp1
      simp only [Bool.not_eq_true', Bool.and_eq_false_iff, beq_eq_false_iff_ne,
        ne_eq]
      intro hcontra
      rcases hcontra with h | h
      · apply h
        split at hpa
        · cases hpa
        · have := (Option.some.injEq _ _).mp hpa
          subst this
          rfl
      · exact absurd hkey (by simpa using h)
    rw [hins, List.append_nil]
    apply filter_map_of_pred_invariant
    · intro a
      dsimp only
      by_cases hpa : a.project_assignment_id = aid
      · rw [if_pos hpa]
        cases hlk : (distribution_hours T
            (iter_months ⟨req.start_year, req.start_month, 1⟩
              ⟨req.end_year, req.end_month, 1⟩)).lookup (a.year, a.month) with
        | none => rfl
        | some h => rfl
      · rw [if_neg hpa]
    · intro a hpa
      dsimp only
      by_cases hid : a.project_assignment_id = aid
      · rw [if_pos hid]
        have hnotin : (a.year, a.month) ∉
            iter_months ⟨req.start_year, req.start_month, 1⟩
              ⟨req.end_year, req.end_month, 1⟩ := by
          simp only [Bool.not_eq_true', Bool.and_eq_false_iff,
            beq_eq_false_iff_ne, ne_eq] at hpa
          rcases hpa with h | h
          · exact absurd hid h
          · simpa using h
        have : (distribution_hours T
            (iter_months ⟨req.start_year, req.start_month, 1⟩
              ⟨req.end_year, req.end_month, 1⟩)).lookup (a.year, a.month) = none := by
          apply lookup_eq_none_of_not_mem_keys
          rw [distribution_hours_fst]
          exact hnotin
        rw [this]
      · rw [if_neg hid]
  · intro ym hym
    rw [List.filter_append, List.length_append]
    have hpf : ∀ a : Allocation,
        ((fun (a : Allocation) => a.project_assignment_id == aid && a.year == ym.1 &&
          a.month == ym.2)
          ((fun (a : Allocation) =>
            if a.project_assignment_id = aid then
              match (distribution_hours T
                  (iter_months ⟨req.start_year, req.start_month, 1⟩
                    ⟨req.end_year, req.end_month, 1⟩)).lookup (a.year, a.month) with
              | some h => { a with allocated_hours := h }
              | none => a
            else a) a)) =
        (a.project_assignment_id == aid && a.year == ym.1 && a.month == ym.2) := by
      intro a
      dsimp only
      by_cases hpa : a.project_assignment_id = aid
      · rw [if_pos hpa]
        cases hlk : (distribution_hours T
            (iter_months ⟨req.start_year, req.start_month, 1⟩
              ⟨req.end_year, req.end_month, 1⟩)).lookup (a.year, a.month) with
        | none => rfl
        | some h => rfl
      · rw [if_neg hpa]
    rw [filter_map_comm_of_pred_invariant hpf, List.length_map]
    have hle : (db.filter (fun a => a.project_assignment_id == aid &&
        a.year == ym.1 && a.month == ym.2)).length ≤ 1 := by
      apply length_filter_le_one
      apply huniq.imp
      intro a b hab hQa hQb
      simp only [Bool.and_eq_true, beq_iff_eq] at hQa hQb
      exact hab hQa.1.1 hQb.1.1 (hQa.1.2.trans hQb.1.2.symm)
        (hQa.2.trans hQb.2.symm)
    have hnodup : ((distribution_hours T
        (iter_months ⟨req.start_year, req.start_month, 1⟩
          ⟨req.end_year, req.end_month, 1⟩)).map (·.1)).Nodup := by
      rw [distribution_hours_fst]
      exact iter_months_nodup _ _
    have hmemkeys : ym ∈ (distribution_hours T
        (iter_months ⟨req.start_year, req.start_month, 1⟩
          ⟨req.end_year, req.end_month, 1⟩)).map (·.1) := by
      rw [distribution_hours_fst]
      exact hym
    by_cases hex : (db.filter (fun a => a.project_assignment_id == aid &&
        a.year == ym.1 && a.month == ym.2)).length = 0
    · -- no existing row: the `any` check fails at ym, one insert appears
      have hck : ((db.filter (fun a => a.project_assignment_id == aid)).any
          (fun a => a.year == ym.1 && a.month == ym.2)) = false := by
        rw [List.any_eq_false]
        intro a ha
        have hmem := List.mem_filter.mp ha
        intro hq
        have : a ∈ db.filter (fun a => a.project_assignment_id == aid &&
            a.year == ym.1 && a.month == ym.2) := by
          rw [List.mem_filter]
          refine ⟨hmem.1, ?_⟩
          simp only [Bool.and_eq_true] at hq ⊢
          exact ⟨⟨hmem.2, hq.1⟩, hq.2⟩
        rw [List.length_eq_zero.mp hex] at this
        cases this
      rw [hex, filterMap_insert_count_one aid
        (fun k => (db.filter (fun a => a.project_assignment_id == aid)).any
          (fun a => a.year == k.1 && a.month == k.2)) ym _ hnodup hmemkeys hck]
    · -- an existing row: the `any` check succeeds at ym, no insert appears
      have hge : 1 ≤ (db.filter (fun a => a.project_assignment_id == aid &&
          a.year == ym.1 && a.month == ym.2)).length := by omega
      have hone : (db.filter (fun a => a.project_assignment_id == aid &&
          a.year == ym.1 && a.month == ym.2)).length = 1 := by omega
      rw [hone]
      have hinsnil : ((distribution_hours T
          (iter_months ⟨req.start_year, req.start_month, 1⟩
            ⟨req.end_year, req.end_month, 1⟩)).filterMap (fun p =>
          if (db.filter (fun (a : Allocation) => a.project_assignment_id == aid)).any
              (fun (a : Allocation) => a.year == p.1.1 && a.month == p.1.2) then none
          else
            some ({ id := 0, project_assignment_id := aid,
                    year := p.1.1, month := p.1.2,
                    allocated_hours := p.2 } : Allocation))).filter
          (fun (a : Allocation) => a.project_assignment_id == aid && a.year == ym.1 &&
            a.month == ym.2) = [] := by
        rw [List.filter_eq_nil_iff]
        intro a ha hq
        obtain ⟨p, hp, hpa⟩ := List.mem_filterMap.mp ha
        split at hpa
        · cases hpa
        · rename_i hchk
          have := (Option.some.injEq _ _).mp hpa
          subst this
          simp only [Bool.and_eq_true, beq_iff_eq] at hq
          -- the produced row has key p.1 = ym, so the any-check examined ym
          have hkey1 : p.1.1 = ym.1 := hq.1.2
          have hkey2 : p.1.2 = ym.2 := hq.2
          -- yet an existing row matches ym, contradicting the failed check
          have hexrow : ∃ a ∈ db.filter
              (fun a => a.project_assignment_id == aid),
              (a.year == ym.1 && a.month == ym.2) = true := by
            have hlen1 := hone
            cases hfe : db.filter (fun a => a.project_assignment_id == aid &&
                a.year == ym.1 && a.month == ym.2) with
            | nil => rw [hfe] at hlen1; cases hlen1
            | cons b rest =>
              have hbmem : b ∈ db.filter (fun a =>
                  a.project_assignment_id == aid && a.year == ym.1 &&
                  a.month == ym.2) := by
                rw [hfe]
                exact List.mem_cons_self _ _
              have hb := List.mem_filter.mp hbmem
              refine ⟨b, ?_, ?_⟩
              · rw [List.mem_filter]
                refine ⟨hb.1, ?_⟩
                simp only [Bool.and_eq_true] at hb ⊢
                exact hb.2.1.1
              · simp only [Bool.and_eq_true] at hb ⊢
                exact ⟨hb.2.1.2, hb.2.2⟩
          obtain ⟨b, hbmem, hbq⟩ := hexrow
          have : ((db.filter (fun a => a.project_assignment_id == aid)).any
              (fun a => a.year == p.1.1 && a.month == p.1.2)) = true := by
            rw [List.any_eq_true]
            refine ⟨b, hbmem, ?_⟩
            rw [hkey1, hkey2]
            exact hbq
          exact hchk this
      rw [hinsnil]
      rfl

theorem distribute_assignment_hours_frame_witness :
    distribute_assignment_hours 5 0
        [⟨1, 5, 2025, 1, 7⟩, ⟨2, 9, 2024, 3, 4⟩]
        ⟨2025, 1, 2025, 2, some 10, none⟩ =
      .ok [⟨1, 5, 2025, 1, 5⟩, ⟨2, 9, 2024, 3, 4⟩, ⟨0, 5, 2025, 2, 5⟩] ∧
    (∀ ym ∈ iter_months ⟨2025, 1, 1⟩ ⟨2025, 2, 1⟩,
      (([⟨1, 5, 2025, 1, 5⟩, ⟨2, 9, 2024, 3, 4⟩, ⟨0, 5, 2025, 2, 5⟩] :
          List Allocation).filter (fun a => a.project_assignment_id == 5 &&
        a.year == ym.1 && a.month == ym.2)).length = 1) := by
  have hok : distribute_assignment_hours 5 0
      [⟨1, 5, 2025, 1, 7⟩, ⟨2, 9, 2024, 3, 4⟩]
      ⟨2025, 1, 2025, 2, some 10, none⟩ =
      .ok [⟨1, 5, 2025, 1, 5⟩, ⟨2, 9, 2024, 3, 4⟩, ⟨0, 5, 2025, 2, 5⟩] := by rfl
  refine ⟨hok, ?_⟩
  exact (distribute_assignment_hours_frame 5 0
    [⟨1, 5, 2025, 1, 7⟩, ⟨2, 9, 2024, 3, 4⟩]
    ⟨2025, 1, 2025, 2, some 10, none⟩
    [⟨1, 5, 2025, 1, 5⟩, ⟨2, 9, 2024, 3, 4⟩, ⟨0, 5, 2025, 2, 5⟩]
    hok (by decide)).2

/-! ## Portfolio FTE classification (C5) -/

/-- C5: in the dashboard classification an employee whose current-month FTE is
exactly 1.0 lands in neither bucket (the over-allocation threshold is strict),
an employee at exactly 0.25 lands in the bench bucket (that threshold is
inclusive) and not in the over-allocated one, and an employee strictly between
0.25 and 1.0 lands in neither. -/
theorem fte_threshold_boundaries (emps : List (ℤ × ℤ)) (std : ℤ) (e : ℤ × ℤ)
    (he : e ∈ emps) :
    (employee_current_fte e.2 std = 1 →
      e ∉ over_allocated_employees emps std ∧ e ∉ bench_employees emps std) ∧
    (employee_current_fte e.2 std = 1/4 →
      e ∈ bench_employees emps std ∧ e ∉ over_allocated_employees emps std) ∧
    (1/4 < employee_current_fte e.2 std → employee_current_fte e.2 std < 1 →
      e ∉ over_allocated_employees emps std ∧ e ∉ bench_employees emps std) := by
  refine ⟨?_, ?_, ?_⟩
  · intro hfte
    constructor
    · intro hmem
      have h := (List.mem_filter.mp hmem).2
      rw [decide_eq_true_iff] at h
      rw [hfte] at h
      exact lt_irrefl 1 h
    · intro hmem
      have h := (List.mem_filter.mp hmem).2
      rw [decide_eq_true_iff] at h
      rw [hfte] at h
      norm_num at h
  · intro hfte
    constructor
    · rw [bench_employees, List.mem_filter]
      refine ⟨he, ?_⟩
      rw [decide_eq_true_iff, hfte]
      norm_num
    · intro hmem
      have h := (List.mem_filter.mp hmem).2
      rw [decide_eq_true_iff] at h
      rw [hfte] at h
      norm_num at h
  · intro hlow hhigh
    constructor
    · intro hmem
      have h := (List.mem_filter.mp hmem).2
      rw [decide_eq_true_iff] at h
      linarith
    · intro hmem
      have h := (List.mem_filter.mp hmem).2
      rw [decide_eq_true_iff] at h
      linarith [h.2]

theorem fte_threshold_boundaries_witness :
    ((1 : ℤ), (40 : ℤ)) ∈ ([(1, 40)] : List (ℤ × ℤ)) ∧
    employee_current_fte 40 160 = 1/4 ∧
    ((1 : ℤ), (40 : ℤ)) ∈ bench_employees [(1, 40)] 160 := by
  have h1 : ((1 : ℤ), (40 : ℤ)) ∈ ([(1, 40)] : List (ℤ × ℤ)) := by simp
  have h2 : employee_current_fte 40 160 = 1/4 := by
    norm_num [employee_current_fte]
  exact ⟨h1, h2,
    ((fte_threshold_boundaries [(1, 40)] 160 (1, 40) h1).2.1 h2).1⟩

/-! ## Manager isolation of the aggregation layer (C7) -/

theorem sum_map_filter_sub {α} (l : List α) (p keep : α → Bool) (f : α → ℤ)
    (h0 : ∀ x ∈ l, p x = true → keep x = false → f x = 0) :
    ((l.filter p).map f).sum = (((l.filter keep).filter p).map f).sum := by
  induction l with
  | nil => rfl
  | cons a t ih =>
    have iht := ih (fun x hx => h0 x (by simp [hx]))
    by_cases hk : keep a = true
    · by_cases hp : p a = true
      · simp [List.filter_cons, hk, hp, iht]
      · simp [List.filter_cons, hk, hp, iht]
    · have hk2 : keep a = false := by simpa using hk
      by_cases hp : p a = true
      · have hz := h0 a (by simp) hp hk2
        simp [List.filter_cons, hk2, hp, iht, hz]
      · simp [List.filter_cons, hk2, hp, iht]

theorem restrict_db_allocations_filter (db : DB) (A aid : ℤ)
    (hk : ∃ asg ∈ db.assignments.filter (keep_assignment db A), asg.id = aid)
    (q : Allocation → Bool)
    (hq : ∀ al, q al = true → al.project_assignment_id = aid) :
    (restrict_db db A).allocations.filter q = db.allocations.filter q := by
  show (db.allocations.filter (fun al =>
    (db.assignments.filter (keep_assignment db A)).any
      (fun asg => asg.id == al.project_assignment_id))).filter q =
    db.allocations.filter q
  rw [List.filter_filter]
  apply List.filter_congr
  intro al _
  cases hql : q al with
  | false => simp
  | true =>
    obtain ⟨asg, hasg, haid⟩ := hk
    have hpaid := hq al hql
    have hany : (db.assignments.filter (keep_assignment db A)).any
        (fun asg => asg.id == al.project_assignment_id) = true := by
      rw [List.any_eq_true]
      refine ⟨asg, hasg, ?_⟩
      rw [haid, hpaid]
      exact beq_self_eq_true aid
    simp [hany]

/-- C7: every aggregation entry point scoped to manager `A` computes exactly
what the unscoped entry point computes on the sub-database holding only
manager `A`'s projects, assignments and allocations — so no row of the result
derives from another manager's data, and adding, removing or editing another
manager's rows cannot change the scoped result. -/
theorem manager_isolation (db : DB) (A : ℤ) :
    scoped_assignments db (some A) = (restrict_db db A).assignments ∧
    (∀ rid, role_capacity_funded db (some A) rid =
      role_capacity_funded (restrict_db db A) none rid) ∧
    (∀ rid, role_capacity_allocated db (some A) rid =
      role_capacity_allocated (restrict_db db A) none rid) ∧
    role_capacity_role_ids db (some A) =
      role_capacity_role_ids (restrict_db db A) none ∧
    (∀ u y m, monthly_user_allocation_total db (some A) u y m =
      monthly_user_allocation_total (restrict_db db A) none u y m) ∧
    (∀ u y m, MonthlyUserTotalHasRow db (some A) u y m ↔
      MonthlyUserTotalHasRow (restrict_db db A) none u y m) ∧
    (∀ u pid pname y m,
      monthly_user_project_allocation db (some A) u pid pname y m =
        monthly_user_project_allocation (restrict_db db A) none u pid pname y m) ∧
    (∀ u rname, user_role_funding_total db (some A) u rname =
      user_role_funding_total (restrict_db db A) none u rname) := by
  refine ⟨rfl, fun rid => rfl, ?_, rfl, ?_, ?_, ?_, fun u rname => rfl⟩
  · -- role_capacity_allocated
    intro rid
    unfold role_capacity_allocated
    apply congrArg
    apply List.map_congr_left
    intro asg hasg
    have hmem : asg ∈ db.assignments.filter (keep_assignment db A) :=
      (List.mem_filter.mp hasg).1
    unfold allocated_hours_for_assignment
    rw [restrict_db_allocations_filter db A asg.id ⟨asg, hmem, rfl⟩ _
      (fun al hal => by simpa using hal)]
  · -- monthly_user_allocation_total
    intro u y m
    unfold monthly_user_allocation_total
    apply congrArg
    apply List.map_congr_left
    intro asg hasg
    have hmem : asg ∈ db.assignments.filter (keep_assignment db A) :=
      (List.mem_filter.mp hasg).1
    apply congrArg
    apply congrArg
    symm
    apply restrict_db_allocations_filter db A asg.id ⟨asg, hmem, rfl⟩
    intro al hal
    simp only [Bool.and_eq_true, beq_iff_eq] at hal
    exact hal.1.1
  · -- MonthlyUserTotalHasRow
    intro u y m
    unfold MonthlyUserTotalHasRow
    constructor
    · rintro ⟨asg, hasg, hu, al, hal, hpaid, hy, hm⟩
      refine ⟨asg, hasg, hu, al, ?_, hpaid, hy, hm⟩
      show al ∈ (restrict_db db A).allocations
      unfold restrict_db
      rw [List.mem_filter]
      refine ⟨hal, ?_⟩
      rw [List.any_eq_true]
      exact ⟨asg, hasg, by rw [hpaid]; simp⟩
    · rintro ⟨asg, hasg, hu, al, hal, hpaid, hy, hm⟩
      refine ⟨asg, hasg, hu, al, ?_, hpaid, hy, hm⟩
      have : al ∈ (restrict_db db A).allocations := hal
      unfold restrict_db at this
      exact (List.mem_filter.mp this).1
  · -- monthly_user_project_allocation
    intro u pid pname y m
    unfold monthly_user_project_allocation
    have hzero : ∀ asg ∈ db.assignments,
        (fun asg => asg.user_id == u && asg.project_id == pid) asg = true →
        keep_assignment db A asg = false →
        ((db.projects.filter (fun p =>
            p.id == asg.project_id && p.name == pname &&
            (p.manager_id == some A))).map
          (fun _p =>
            ((db.allocations.filter (fun al =>
              al.project_assignment_id == asg.id && al.year == y &&
                al.month == m)).map (·.allocated_hours)).sum)).sum = 0 := by
      intro asg _ _ hkeep
      have hnil : db.projects.filter (fun p =>
          p.id == asg.project_id && p.name == pname &&
          (p.manager_id == some A)) = [] := by
        rw [List.filter_eq_nil_iff]
        intro p hp hcond
        simp only [Bool.and_eq_true] at hcond
        have : keep_assignment db A asg = true := by
          unfold keep_assignment
          rw [List.any_eq_true]
          refine ⟨p, hp, ?_⟩
          rw [Bool.and_eq_true]
          refine ⟨?_, hcond.2⟩
          rw [beq_iff_eq]
          exact beq_iff_eq.mp hcond.1.1
        rw [hkeep] at this
        cases this
      rw [hnil]
      rfl
    rw [sum_map_filter_sub db.assignments _ (keep_assignment db A) _ hzero]
    show (((db.assignments.filter (keep_assignment db A)).filter
        (fun asg => asg.user_id == u && asg.project_id == pid)).map _).sum =
      (((db.assignments.filter (keep_assignment db A)).filter
        (fun asg => asg.user_id == u && asg.project_id == pid)).map _).sum
    apply congrArg
    apply List.map_congr_left
    intro asg hasg
    have hmem : asg ∈ db.assignments.filter (keep_assignment db A) :=
      (List.mem_filter.mp hasg).1
    have hproj : (restrict_db db A).projects.filter (fun p =>
        p.id == asg.project_id && p.name == pname &&
        (match (none : Option ℤ) with
         | none => true
         | some a => p.manager_id == some a)) =
        db.projects.filter (fun p =>
          p.id == asg.project_id && p.name == pname &&
          (p.manager_id == some A)) := by
      show (db.projects.filter (fun p => p.manager_id == some A)).filter _ = _
      rw [List.filter_filter]
      apply List.filter_congr
      intro p _
      cases h1 : p.id == asg.project_id <;>
        cases h2 : p.name == pname <;>
        cases h3 : p.manager_id == some A <;> rfl
    rw [hproj]
    apply congrArg
    apply List.map_congr_left
    intro p _
    apply congrArg
    apply congrArg
    symm
    apply restrict_db_allocations_filter db A asg.id ⟨asg, hmem, rfl⟩
    intro al hal
    simp only [Bool.and_eq_true, beq_iff_eq] at hal
    exact hal.1.1

/-! ## Portfolio dashboard unscoped counts (C8) -/

/-- C8 (code bug): with the manager scope omitted, the portfolio dashboard's
`total_projects`/`total_employees` filters become SQL `manager_id IS NULL`
instead of going unscoped — a database with one project and one employee, both
belonging to manager 7, yields counts of 0, not the global counts of 1
(which the repository's own `test_portfolio_dashboard` expects).  The crud
aggregation helpers, by contrast, are genuinely global when the scope is
omitted: reassigning every project's manager cannot change their `none`-scoped
result. -/
theorem portfolio_dashboard_unscoped_counts_bug :
    total_projects_count
      ⟨[⟨1, "P", some 7⟩], [], [⟨1, "E", some 7, SystemRole.EMPLOYEE⟩], [], []⟩
      none = 0 ∧
    (⟨[⟨1, "P", some 7⟩], [], [⟨1, "E", some 7, SystemRole.EMPLOYEE⟩], [], []⟩ :
      DB).projects.length = 1 ∧
    total_employees_count
      ⟨[⟨1, "P", some 7⟩], [], [⟨1, "E", some 7, SystemRole.EMPLOYEE⟩], [], []⟩
      none = 0 ∧
    (⟨[⟨1, "P", some 7⟩], [], [⟨1, "E", some 7, SystemRole.EMPLOYEE⟩], [], []⟩ :
      DB).users.length = 1 ∧
    total_projects_count
      ⟨[⟨1, "P", some 7⟩], [], [⟨1, "E", some 7, SystemRole.EMPLOYEE⟩], [], []⟩
      (some 7) = 1 ∧
    total_employees_count
      ⟨[⟨1, "P", some 7⟩], [], [⟨1, "E", some 7, SystemRole.EMPLOYEE⟩], [], []⟩
      (some 7) = 1 ∧
    (∀ (db : DB) (f : Project → Option ℤ) (u y m : ℤ),
      monthly_user_allocation_total (map_project_managers f db) none u y m =
        monthly_user_allocation_total db none u y m) := by
  exact ⟨rfl, rfl, rfl, rfl, rfl, rfl, fun db f u y m => rfl⟩

/-! ## Burn-down series (C2) -/

theorem adjustLast_mem_cent (d : ℚ) :
    ∀ l : List ℚ, (∀ x ∈ l, IsCent x) → ∀ x ∈ adjustLast d l, IsCent x := by
  intro l
  induction l with
  | nil => intro _ x hx; simp [adjustLast] at hx
  | cons a t ih =>
    intro hl x hx
    cases t with
    | nil =>
      simp only [adjustLast, List.mem_singleton] at hx
      subst hx
      exact isCent_round2 _
    | cons b t2 =>
      rcases List.mem_cons.mp hx with rfl | hx2
      · exact hl x (by simp)
      · exact ih (fun y hy => hl y (by simp [hy])) x hx2

theorem planned_hours_distribution_cent (t : ℚ) (w : List MonthKey)
    (ov : Overrides) : ∀ x ∈ planned_hours_distribution t w ov, IsCent x := by
  intro x hx
  unfold planned_hours_distribution at hx
  split at hx
  · simp at hx
  · exact adjustLast_mem_cent _ _ (distribution_rounded_cent t w ov) x hx

theorem planned_hours_distribution_dropLast_nonneg (t : ℚ) (w : List MonthKey)
    (ov : Overrides) (ht : 0 ≤ t) :
    ∀ x ∈ (planned_hours_distribution t w ov).dropLast, 0 ≤ x := by
  intro x hx
  unfold planned_hours_distribution at hx
  split at hx
  · simp at hx
  · rename_i hw
    rw [adjustLast_dropLast] at hx
    exact distribution_rounded_nonneg t w ov ht hw x (List.dropLast_subset _ hx)

theorem lookupQ_nonneg {actual : ActualMap}
    (hA : ∀ p ∈ actual, 0 ≤ p.2) (k : MonthKey) : 0 ≤ lookupQ actual k := by
  induction actual with
  | nil => exact le_refl 0
  | cons p t ih =>
    obtain ⟨pk, pv⟩ := p
    unfold lookupQ
    rw [List.lookup_cons]
    cases hk : k == pk with
    | true => exact hA (pk, pv) (by simp)
    | false => exact ih (fun q hq => hA q (by simp [hq]))

theorem lookupQ_cent {actual : ActualMap}
    (hC : ∀ p ∈ actual, IsCent p.2) (k : MonthKey) : IsCent (lookupQ actual k) := by
  induction actual with
  | nil => exact isCent_zero
  | cons p t ih =>
    obtain ⟨pk, pv⟩ := p
    unfold lookupQ
    rw [List.lookup_cons]
    cases hk : k == pk with
    | true => exact hC (pk, pv) (by simp)
    | false => exact ih (fun q hq => hC q (by simp [hq]))

theorem burn_down_aux_nonneg (actual : ActualMap) (ov : Overrides) :
    ∀ (z : List (MonthKey × ℚ)) (pr ar : ℚ) (i : ℕ),
      ∀ q ∈ burn_down_aux actual ov pr ar i z,
        0 ≤ q.planned_hours ∧ 0 ≤ q.actual_hours := by
  intro z
  induction z with
  | nil => intro pr ar i q hq; simp [burn_down_aux] at hq
  | cons e rest ih =>
    intro pr ar i q hq
    obtain ⟨ym, pb⟩ := e
    rw [burn_down_aux] at hq
    rcases List.mem_cons.mp hq with rfl | hq2
    · constructor
      · exact round2_nonneg (le_max_right _ _)
      · exact round2_nonneg (le_max_right _ _)
    · exact ih _ _ _ q hq2

theorem burn_down_aux_length (actual : ActualMap) (ov : Overrides) :
    ∀ (z : List (MonthKey × ℚ)) (pr ar : ℚ) (i : ℕ),
      (burn_down_aux actual ov pr ar i z).length = z.length := by
  intro z
  induction z with
  | nil => intro pr ar i; rfl
  | cons e rest ih =>
    intro pr ar i
    obtain ⟨ym, pb⟩ := e
    rw [burn_down_aux]
    simp only [List.length_cons, ih]

theorem burn_down_aux_dropLast (actual : ActualMap) (ov : Overrides) :
    ∀ (z : List (MonthKey × ℚ)) (pr ar : ℚ) (i : ℕ), z ≠ [] →
      ∃ lastpt, burn_down_aux actual ov pr ar i z =
        burn_down_aux actual ov pr ar i z.dropLast ++ [lastpt] := by
  intro z
  induction z with
  | nil => intro pr ar i h; exact absurd rfl h
  | cons e rest ih =>
    intro pr ar i _
    obtain ⟨ym, pb⟩ := e
    cases rest with
    | nil => exact ⟨_, rfl⟩
    | cons e2 rest2 =>
      obtain ⟨lp, hlp⟩ := ih (max (pr - pb) 0) (max (ar - lookupQ actual ym) 0)
        (i + 1) (by simp)
      refine ⟨lp, ?_⟩
      rw [burn_down_aux, hlp]
      rfl

theorem burn_down_aux_actual_chain (actual : ActualMap) (ov : Overrides)
    (hA : ∀ p ∈ actual, 0 ≤ p.2) :
    ∀ (z : List (MonthKey × ℚ)) (pr ar : ℚ) (i : ℕ), 0 ≤ ar →
      List.Chain' (fun a b => b ≤ a)
        ((burn_down_aux actual ov pr ar i z).map (·.actual_hours)) ∧
      (∀ x, ((burn_down_aux actual ov pr ar i z).map
          (·.actual_hours)).head? = some x → x ≤ round2 ar) := by
  intro z
  induction z with
  | nil =>
    intro pr ar i _
    exact ⟨List.chain'_nil, fun x hx => Option.noConfusion hx⟩
  | cons e rest ih =>
    intro pr ar i har
    obtain ⟨ym, pb⟩ := e
    have hab : 0 ≤ lookupQ actual ym := lookupQ_nonneg hA ym
    have har2 : (0 : ℚ) ≤ max (ar - lookupQ actual ym) 0 := le_max_right _ _
    obtain ⟨ihchain, ihhead⟩ := ih (max (pr - pb) 0)
      (max (ar - lookupQ actual ym) 0) (i + 1) har2
    have hmax : max (ar - lookupQ actual ym) 0 ≤ ar := by
      apply max_le
      · linarith
      · exact har
    rw [burn_down_aux]
    constructor
    · rw [List.map_cons]
      apply List.chain'_cons'.mpr
      exact ⟨fun y hy => ihhead y (Option.mem_def.mp hy), ihchain⟩
    · intro x hx
      rw [List.map_cons, List.head?_cons] at hx
      have := (Option.some.injEq _ _).mp hx
      subst this
      exact round2_mono hmax

theorem burn_down_aux_planned_chain (actual : ActualMap) (ov : Overrides) :
    ∀ (z : List (MonthKey × ℚ)) (pr ar : ℚ) (i : ℕ), 0 ≤ pr →
      (∀ q ∈ z.map (·.2), 0 ≤ q) →
      List.Chain' (fun a b => b ≤ a)
        ((burn_down_aux actual ov pr ar i z).map (·.planned_hours)) ∧
      (∀ x, ((burn_down_aux actual ov pr ar i z).map
          (·.planned_hours)).head? = some x → x ≤ round2 pr) := by
  intro z
  induction z with
  | nil =>
    intro pr ar i _ _
    exact ⟨List.chain'_nil, fun x hx => Option.noConfusion hx⟩
  | cons e rest ih =>
    intro pr ar i hpr hb
    obtain ⟨ym, pb⟩ := e
    have hpb : 0 ≤ pb := hb pb (by simp)
    have hpr2 : (0 : ℚ) ≤ max (pr - pb) 0 := le_max_right _ _
    obtain ⟨ihchain, ihhead⟩ := ih (max (pr - pb) 0)
      (max (ar - lookupQ actual ym) 0) (i + 1) hpr2
      (fun q hq => hb q (by simp at hq ⊢; exact Or.inr hq))
    have hmax : max (pr - pb) 0 ≤ pr := by
      apply max_le
      · linarith
      · exact hpr
    rw [burn_down_aux]
    constructor
    · rw [List.map_cons]
      apply List.chain'_cons'.mpr
      exact ⟨fun y hy => ihhead y (Option.mem_def.mp hy), ihchain⟩
    · intro x hx
      rw [List.map_cons, List.head?_cons] at hx
      have := (Option.some.injEq _ _).mp hx
      subst this
      exact round2_mono hmax

theorem build_burn_down_series_eq (t : ℚ) (w : List MonthKey)
    (actual : ActualMap) (ov : Overrides) :
    build_burn_down_series t w actual ov =
      burn_down_aux actual ov t t 1
        (w.zip (planned_hours_distribution t w ov)) := by
  unfold build_burn_down_series
  dsimp only
  rw [planned_hours_distribution_length]
  simp

/-- C2 (amended): for `total_hours ≥ 0` and an `actual_allocations` map whose
values are non-negative two-decimal quantities (the data model stores
non-negative integer hours), every emitted `planned_hours` and `actual_hours`
is ≥ 0; both running remainders start at `total_hours` (observably: the first
record's remainders are `round2 (max (total_hours − burn) 0)` for its emitted
burns); the actual trajectory is monotonically non-increasing at every step;
and the planned trajectory is monotonically non-increasing at every step
except possibly the step into the final record, where the rounding-drift
correction can make the last planned burn negative
(see `burn_down_series_monotonicity_counterexample`). -/
theorem build_burn_down_series_invariants (t : ℚ) (ht : 0 ≤ t)
    (w : List MonthKey) (actual : ActualMap) (ov : Overrides)
    (hA : ∀ p ∈ actual, 0 ≤ p.2 ∧ IsCent p.2) :
    (∀ q ∈ build_burn_down_series t w actual ov,
      0 ≤ q.planned_hours ∧ 0 ≤ q.actual_hours) ∧
    (∀ q, (build_burn_down_series t w actual ov).head? = some q →
      q.planned_hours = round2 (max (t - q.planned_burn_hours) 0) ∧
      q.actual_hours = round2 (max (t - q.actual_burn_hours) 0)) ∧
    List.Chain' (fun a b => b ≤ a)
      ((build_burn_down_series t w actual ov).map (·.actual_hours)) ∧
    List.Chain' (fun a b => b ≤ a)
      (((build_burn_down_series t w actual ov).map (·.planned_hours)).dropLast) := by
  rw [build_burn_down_series_eq]
  refine ⟨?_, ?_, ?_, ?_⟩
  · exact burn_down_aux_nonneg actual ov _ t t 1
  · intro q hq
    cases w with
    | nil => cases hq
    | cons ym w2 =>
      cases hpd : planned_hours_distribution t (ym :: w2) ov with
      | nil =>
        have := planned_hours_distribution_length t (ym :: w2) ov
        rw [hpd] at this
        simp at this
      | cons pb pd2 =>
        rw [hpd] at hq
        rw [List.zip_cons_cons, burn_down_aux, List.head?_cons] at hq
        have := (Option.some.injEq _ _).mp hq
        subst this
        have hpbcent : IsCent pb := by
          apply planned_hours_distribution_cent t (ym :: w2) ov
          rw [hpd]
          simp
        have habcent : IsCent (lookupQ actual ym) :=
          lookupQ_cent (fun p hp => (hA p hp).2) ym
        constructor
        · show round2 (max (t - pb) 0) =
            round2 (max (t - round2 pb) 0)
          rw [round2_isCent hpbcent]
        · show round2 (max (t - lookupQ actual ym) 0) =
            round2 (max (t - round2 (lookupQ actual ym)) 0)
          rw [round2_isCent habcent]
  · exact (burn_down_aux_actual_chain actual ov
      (fun p hp => (hA p hp).1) _ t t 1 ht).1
  · cases hz : w.zip (planned_hours_distribution t w ov) with
    | nil => simp [burn_down_aux]
    | cons e z2 =>
      have hzne : w.zip (planned_hours_distribution t w ov) ≠ [] := by
        rw [hz]
        simp
      obtain ⟨lp, hlp⟩ := burn_down_aux_dropLast actual ov
        (w.zip (planned_hours_distribution t w ov)) t t 1 hzne
      rw [← hz, hlp, List.map_append, List.map_cons, List.map_nil,
        List.dropLast_concat]
      have hlen : (planned_hours_distribution t w ov).length = w.length :=
        planned_hours_distribution_length t w ov
      have hsnd : ((w.zip (planned_hours_distribution t w ov)).dropLast).map
          (·.2) = (planned_hours_distribution t w ov).dropLast := by
        rw [List.map_dropLast]
        have : (w.zip (planned_hours_distribution t w ov)).map (·.2) =
            planned_hours_distribution t w ov :=
          List.map_snd_zip _ _ (le_of_eq hlen)
        rw [this]
      apply (burn_down_aux_planned_chain actual ov _ t t 1 ht ?_).1
      intro q hq
      rw [hsnd] at hq
      exact planned_hours_distribution_dropLast_nonneg t w ov ht q hq

theorem build_burn_down_series_invariants_witness :
    (0 : ℚ) ≤ 320 ∧
    (∀ p ∈ ([(((2025 : ℤ), (1 : ℤ)), (160 : ℚ))] : ActualMap),
      0 ≤ p.2 ∧ IsCent p.2) ∧
    List.Chain' (fun a b => b ≤ a)
      ((build_burn_down_series 320 [((2025 : ℤ), (1 : ℤ)), (2025, 2)]
        [(((2025 : ℤ), (1 : ℤ)), (160 : ℚ))] none).map (·.actual_hours)) := by
  have hA : ∀ p ∈ ([(((2025 : ℤ), (1 : ℤ)), (160 : ℚ))] : ActualMap),
      0 ≤ p.2 ∧ IsCent p.2 := by
    intro p hp
    rw [List.mem_singleton] at hp
    subst hp
    exact ⟨by norm_num, ⟨16000, by norm_num⟩⟩
  exact ⟨by norm_num, hA,
    (build_burn_down_series_invariants 320 (by norm_num)
      [((2025 : ℤ), (1 : ℤ)), (2025, 2)]
      [(((2025 : ℤ), (1 : ℤ)), (160 : ℚ))] none hA).2.2.1⟩

/-- C2 (counterexample to the original claim): with `total_hours = 0.034`,
five month windows of capacity 1 (via overrides) and no actual allocations,
each raw share `0.0068` rounds up to `0.01`, the drift correction `-0.02`
makes the final planned burn `-0.01`, and the emitted `planned_hours`
trajectory is `[0.02, 0.01, 0, 0, 0.01]` — it increases at the final record,
so the claimed monotone non-increase fails. -/
theorem burn_down_series_monotonicity_counterexample :
    ((build_burn_down_series (34/1000)
        [((2025 : ℤ), (1 : ℤ)), (2025, 2), (2025, 3), (2025, 4), (2025, 5)] []
        (some [(((2025 : ℤ), (1 : ℤ)), (1 : ℤ)), ((2025, 2), 1), ((2025, 3), 1),
               ((2025, 4), 1), ((2025, 5), 1)])).map (·.planned_hours) =
      [1/50, 1/100, 0, 0, 1/100]) ∧
    ¬ List.Chain' (fun a b => b ≤ a)
      ((build_burn_down_series (34/1000)
        [((2025 : ℤ), (1 : ℤ)), (2025, 2), (2025, 3), (2025, 4), (2025, 5)] []
        (some [(((2025 : ℤ), (1 : ℤ)), (1 : ℤ)), ((2025, 2), 1), ((2025, 3), 1),
               ((2025, 4), 1), ((2025, 5), 1)])).map (·.planned_hours)) := by
  have hdc : distribution_caps
      [((2025 : ℤ), (1 : ℤ)), (2025, 2), (2025, 3), (2025, 4), (2025, 5)]
      (some [(((2025 : ℤ), (1 : ℤ)), (1 : ℤ)), ((2025, 2), 1), ((2025, 3), 1),
             ((2025, 4), 1), ((2025, 5), 1)]) = [1, 1, 1, 1, 1] := by decide
  have htc : distribution_total_capacity
      [((2025 : ℤ), (1 : ℤ)), (2025, 2), (2025, 3), (2025, 4), (2025, 5)]
      (some [(((2025 : ℤ), (1 : ℤ)), (1 : ℤ)), ((2025, 2), 1), ((2025, 3), 1),
             ((2025, 4), 1), ((2025, 5), 1)]) = 5 := by decide
  have hscale : distribution_scale (34/1000)
      [((2025 : ℤ), (1 : ℤ)), (2025, 2), (2025, 3), (2025, 4), (2025, 5)]
      (some [(((2025 : ℤ), (1 : ℤ)), (1 : ℤ)), ((2025, 2), 1), ((2025, 3), 1),
             ((2025, 4), 1), ((2025, 5), 1)]) = 17/2500 := by
    rw [distribution_scale, htc]
    norm_num
  have hround : round2 (17/2500) = 1/100 := by
    norm_num [round2, roundHalfEven, qfloor]
  have hdr : distribution_rounded (34/1000)
      [((2025 : ℤ), (1 : ℤ)), (2025, 2), (2025, 3), (2025, 4), (2025, 5)]
      (some [(((2025 : ℤ), (1 : ℤ)), (1 : ℤ)), ((2025, 2), 1), ((2025, 3), 1),
             ((2025, 4), 1), ((2025, 5), 1)]) =
      [1/100, 1/100, 1/100, 1/100, 1/100] := by
    rw [distribution_rounded, hdc, hscale]
    simp only [List.map_cons, List.map_nil]
    norm_num [hround]
  have hdiff : round2 (-(2/125 : ℚ)) = -(1/50) := by
    norm_num [round2, roundHalfEven, qfloor]
  have hneg : round2 (-(1/100 : ℚ)) = -(1/100) := by
    norm_num [round2, roundHalfEven, qfloor]
  have hpd : planned_hours_distribution (34/1000)
      [((2025 : ℤ), (1 : ℤ)), (2025, 2), (2025, 3), (2025, 4), (2025, 5)]
      (some [(((2025 : ℤ), (1 : ℤ)), (1 : ℤ)), ((2025, 2), 1), ((2025, 3), 1),
             ((2025, 4), 1), ((2025, 5), 1)]) =
      [1/100, 1/100, 1/100, 1/100, -(1/100)] := by
    rw [planned_hours_distribution,
      if_neg (by simp :
        ¬([((2025 : ℤ), (1 : ℤ)), (2025, 2), (2025, 3), (2025, 4), (2025, 5)] :
          List MonthKey) = []), hdr]
    simp only [adjustLast]
    norm_num [hdiff, hneg]
  have hr1 : round2 (3/125 : ℚ) = 1/50 := by
    norm_num [round2, roundHalfEven, qfloor]
  have hr2 : round2 (7/500 : ℚ) = 1/100 := by
    norm_num [round2, roundHalfEven, qfloor]
  have hr3 : round2 (1/250 : ℚ) = 0 := by
    norm_num [round2, roundHalfEven, qfloor]
  have hr0 : round2 (0 : ℚ) = 0 := by
    norm_num [round2, roundHalfEven, qfloor]
  have hr5 : round2 (1/100 : ℚ) = 1/100 := by
    norm_num [round2, roundHalfEven, qfloor]
  have hmap : (build_burn_down_series (34/1000)
      [((2025 : ℤ), (1 : ℤ)), (2025, 2), (2025, 3), (2025, 4), (2025, 5)] []
      (some [(((2025 : ℤ), (1 : ℤ)), (1 : ℤ)), ((2025, 2), 1), ((2025, 3), 1),
             ((2025, 4), 1), ((2025, 5), 1)])).map (·.planned_hours) =
      [1/50, 1/100, 0, 0, 1/100] := by
    rw [build_burn_down_series_eq, hpd]
    simp only [List.zip_cons_cons, List.zip_nil_right]
    simp only [burn_down_aux, List.map_cons, List.map_nil]
    norm_num [lookupQ, max_def, hr1, hr2, hr3, hr0, hr5]
  refine ⟨hmap, ?_⟩
  rw [hmap]
  intro hch
  simp only [List.chain'_cons, List.chain'_singleton] at hch
  have := hch.2.2.2.1
  norm_num at this

end StaffAlloc
